import Mathlib

/-!
Verification of the Operation-to-Tool Mapping & Request Builder of the
mcp-swagger server (`SwaggerMCPServer` in `src/index.ts`).

The TypeScript source is shallowly embedded: strings are `List Char`
wrapped in `String`, JavaScript objects are ordered association lists
(`List (String × _)`) with JS assignment semantics (update-in-place,
insert-at-end), and the WHATWG `URL` object used by `buildUrl` is modelled
by a `Url` structure together with the pathname-setter percent-encoding
mandated by the URL standard (the path percent-encode set, which notably
contains the curly braces).  The injected axios HTTP client is modelled
as a function from the built request configuration to an outcome value.
-/

set_option autoImplicit false

namespace McpSwagger

/-- ASCII lower-casing of one character, the behaviour of
JavaScript `toLowerCase` on the ASCII method names used here. -/
def asciiLower (c : Char) : Char :=
  if 65 ≤ c.toNat ∧ c.toNat ≤ 90 then Char.ofNat (c.toNat + 32) else c

/-- ASCII upper-casing of one character (`toUpperCase` on ASCII input). -/
def asciiUpper (c : Char) : Char :=
  if 97 ≤ c.toNat ∧ c.toNat ≤ 122 then Char.ofNat (c.toNat - 32) else c

/-- Lower-case a string, ASCII-wise. -/
def lowerAscii (s : String) : String := String.mk (s.data.map asciiLower)

/-- Upper-case a string, ASCII-wise. -/
def upperAscii (s : String) : String := String.mk (s.data.map asciiUpper)

/-- The decimal digit characters, used to print numbers the way
JavaScript's `String(n)` does on integers. -/
def digitC (n : Nat) : Char :=
  if n = 0 then '0' else if n = 1 then '1' else if n = 2 then '2'
  else if n = 3 then '3' else if n = 4 then '4' else if n = 5 then '5'
  else if n = 6 then '6' else if n = 7 then '7' else if n = 8 then '8'
  else '9'

/-- Decimal printing with explicit fuel (the fuel is structural, so the
definition evaluates inside the kernel; `natToStr` supplies enough). -/
def natToStrAux (fuel n : Nat) : List Char :=
  match fuel with
  | 0 => []
  | fuel + 1 =>
    if n < 10 then [digitC n]
    else natToStrAux fuel (n / 10) ++ [digitC (n % 10)]

/-- Decimal representation of a natural number. -/
def natToStr (n : Nat) : List Char := natToStrAux (n + 1) n

/-- Decimal representation of an integer (JavaScript `String(i)`). -/
def intToStr (i : Int) : List Char :=
  if i < 0 then '-' :: natToStr i.natAbs else natToStr i.natAbs

/-- Runtime argument values: the Argument Bag maps parameter names to
values of type string | number | boolean | array | object.  Numbers are
modelled as integers (no claim involves non-integral numbers). -/
inductive Value where
  | str (s : String)
  | num (n : Int)
  | bool (b : Bool)
  | arr (elems : List Value)
  | obj (fields : List (String × Value))
deriving Repr

mutual
/-- JavaScript string coercion `String(v)` as applied by
`encodeURIComponent(args[key])` in `buildUrl`: strings stay, numbers and
booleans print, arrays join their coerced elements with commas and plain
objects become `[object Object]`. -/
def jsToString : Value → List Char
  | .str s => s.data
  | .num n => intToStr n
  | .bool b => if b then "true".data else "false".data
  | .arr elems => jsToStringList elems
  | .obj _ => "[object Object]".data

/-- Coercion of an array of values: elements joined with `,`. -/
def jsToStringList : List Value → List Char
  | [] => []
  | [v] => jsToString v
  | v :: v' :: vs => jsToString v ++ ',' :: jsToStringList (v' :: vs)
end

/-- The characters `encodeURIComponent` leaves unescaped:
`A-Z a-z 0-9 - _ . ! ~ * ' ( )`. -/
def uriUnreserved (c : Char) : Bool :=
  let n := c.toNat
  (48 ≤ n ∧ n ≤ 57) ∨ (65 ≤ n ∧ n ≤ 90) ∨ (97 ≤ n ∧ n ≤ 122) ∨
    n ∈ [45, 95, 46, 33, 126, 42, 39, 40, 41]

/-- UTF-8 bytes of one character. -/
def utf8Bytes (c : Char) : List Nat :=
  let n := c.toNat
  if n < 0x80 then [n]
  else if n < 0x800 then [0xC0 + n / 64, 0x80 + n % 64]
  else if n < 0x10000 then
    [0xE0 + n / 4096, 0x80 + n / 64 % 64, 0x80 + n % 64]
  else
    [0xF0 + n / 262144, 0x80 + n / 4096 % 64, 0x80 + n / 64 % 64, 0x80 + n % 64]

/-- Upper-case hexadecimal digit. -/
def hexUpper (n : Nat) : Char :=
  if n = 0 then '0' else if n = 1 then '1' else if n = 2 then '2'
  else if n = 3 then '3' else if n = 4 then '4' else if n = 5 then '5'
  else if n = 6 then '6' else if n = 7 then '7' else if n = 8 then '8'
  else if n = 9 then '9' else if n = 10 then 'A' else if n = 11 then 'B'
  else if n = 12 then 'C' else if n = 13 then 'D' else if n = 14 then 'E'
  else 'F'

/-- Lower-case hexadecimal digit. -/
def hexLower (n : Nat) : Char :=
  if n = 0 then '0' else if n = 1 then '1' else if n = 2 then '2'
  else if n = 3 then '3' else if n = 4 then '4' else if n = 5 then '5'
  else if n = 6 then '6' else if n = 7 then '7' else if n = 8 then '8'
  else if n = 9 then '9' else if n = 10 then 'a' else if n = 11 then 'b'
  else if n = 12 then 'c' else if n = 13 then 'd' else if n = 14 then 'e'
  else 'f'

/-- A percent-escape `%XX` for one byte. -/
def percentByte (b : Nat) : List Char := ['%', hexUpper (b / 16 % 16), hexUpper (b % 16)]

/-- `encodeURIComponent`: unreserved characters are kept, every other
character is replaced by the percent-escapes of its UTF-8 bytes. -/
def encodeURIComponentL (l : List Char) : List Char :=
  (l.map fun c =>
    if uriUnreserved c then [c] else (utf8Bytes c).map percentByte |>.flatten).flatten

/-- Membership of a character in the WHATWG path percent-encode set
(C0 controls, characters above `~`, and space `"` `#` `<` `>` `?`
`` ` `` `\x7b` `\x7d`): these are percent-encoded by the `URL.pathname`
setter used in `buildUrl`. -/
def pathEncodeSet (c : Char) : Bool :=
  let n := c.toNat
  n ≤ 31 ∨ 127 ≤ n ∨ n ∈ [32, 34, 35, 60, 62, 63, 96, 123, 125]

/-- The per-character percent-encoding step of the WHATWG `URL` pathname
setter's path state (the full setter, with its segment handling and
dot-segment shortening, is `pathnameSet` below). -/
def pathEncodeL (l : List Char) : List Char :=
  (l.map fun c =>
    if pathEncodeSet c then (utf8Bytes c).map percentByte |>.flatten else [c]).flatten

/-- A path-segment separator of the URL standard's path state: `/`, and
for special schemes such as `https` also `\`. -/
def isPathSep (c : Char) : Bool := c = '/' || c = '\\'

/-- A single-dot URL path segment: `.` or `%2e` (case-insensitive),
tested on the percent-encoded segment buffer as the standard does. -/
def isSingleDotSeg (s : List Char) : Bool :=
  s = ['.'] || s.map asciiLower = "%2e".data

/-- A double-dot URL path segment: `..`, `.%2e`, `%2e.` or `%2e%2e`
(case-insensitive), tested on the percent-encoded segment buffer. -/
def isDoubleDotSeg (s : List Char) : Bool :=
  let l := s.map asciiLower
  l = "..".data || l = ".%2e".data || l = "%2e.".data || l = "%2e%2e".data

/-- Split a pathname input at its segment separators. -/
def splitOnSeps : List Char → List (List Char)
  | [] => [[]]
  | c :: cs =>
    match splitOnSeps cs with
    | [] => [[]]
    | s :: rest => if isPathSep c then [] :: s :: rest else (c :: s) :: rest

/-- The path state of the URL standard's parser, run over the split
segments: each segment buffer is percent-encoded; a double-dot segment
shortens the path (dropping its last entry), a single-dot segment is
skipped, and a final dot segment leaves a trailing empty segment. -/
def processSegs : List (List Char) → List (List Char) → List (List Char)
  | acc, [] => acc
  | acc, [s] =>
    let buf := pathEncodeL s
    if isDoubleDotSeg buf then acc.dropLast ++ [[]]
    else if isSingleDotSeg buf then acc ++ [[]]
    else acc ++ [buf]
  | acc, s :: s' :: rest =>
    let buf := pathEncodeL s
    if isDoubleDotSeg buf then processSegs acc.dropLast (s' :: rest)
    else if isSingleDotSeg buf then processSegs acc (s' :: rest)
    else processSegs (acc ++ [buf]) (s' :: rest)

/-- URL path serialisation: `/` before each segment. -/
def serializePath (segs : List (List Char)) : List Char :=
  (segs.map fun s => '/' :: s).flatten

/-- The WHATWG `URL.pathname` setter: empty the path and reparse the
assigned string in path-start state — an initial separator is consumed,
`/` and `\` delimit segments, each segment is percent-encoded with the
path percent-encode set, dot segments shorten or vanish, and the result
is serialised with `/` before each remaining segment. -/
def pathnameSet (input : List Char) : List Char :=
  let body :=
    match input with
    | [] => ([] : List Char)
    | c :: cs => if isPathSep c then cs else c :: cs
  serializePath (processSegs [] (splitOnSeps body))

/-- A pathname input on which the setter performs no dot-segment
shortening and meets no backslash separator: `\` does not occur, and no
`/`-separated segment percent-encodes to a dot segment. -/
def noDotSegs (l : List Char) : Bool :=
  decide ('\\' ∉ l) && (splitOnSeps l).all fun s =>
    !(isDoubleDotSeg (pathEncodeL s)) && !(isSingleDotSeg (pathEncodeL s))

/-- A parsed URL, holding the components `buildUrl` manipulates:
`new URL(baseUrl)` exposes the scheme, the host (with port, if any) and
the `pathname`. -/
structure Url where
  scheme : String
  host : String
  pathname : String
deriving Repr, DecidableEq

/-- Does the list `s` start with the pattern `pat`?  (JavaScript
`startsWith`, also the matching step of `replace`.) -/
def startsWithL : List Char → List Char → Bool
  | [], _ => true
  | _ :: _, [] => false
  | p :: ps, c :: cs => p = c && startsWithL ps cs

/-- Does the list `s` end with the pattern `pat`?  (JavaScript `endsWith`.) -/
def endsWithL (pat s : List Char) : Bool := startsWithL pat.reverse s.reverse

/-- Split a list around the first occurrence of the pattern `pat`. -/
def splitAtSub (l pat : List Char) : Option (List Char × List Char) :=
  if startsWithL pat l then some ([], l.drop pat.length)
  else
    match l with
    | [] => none
    | c :: cs => (splitAtSub cs pat).map fun p => (c :: p.1, p.2)

/-- Parse an absolute URL string into its scheme, host and pathname, the
components read by `buildUrl`.  Well-formed absolute base URLs (as in
every claim) are parsed as `new URL(baseUrl)` would; the constructor's
exception on garbage input is not modelled. -/
def parseUrl (s : String) : Url :=
  match splitAtSub s.data "://".data with
  | none => { scheme := "", host := s, pathname := "/" }
  | some (scheme, rest) =>
    let host := rest.takeWhile (fun c => c ≠ '/')
    let path := rest.dropWhile (fun c => c ≠ '/')
    { scheme := String.mk scheme
      host := String.mk host
      pathname := if path.isEmpty then "/" else String.mk path }

/-- Serialise a URL: `scheme://host` followed by the (already encoded)
pathname, as `URL.toString()` does for the URLs appearing here. -/
def urlToString (u : Url) : String := u.scheme ++ "://" ++ u.host ++ u.pathname

/-- Replace the first occurrence of `pat` in `s` by `rep`, the behaviour
of JavaScript `String.prototype.replace` with a string pattern.  (The
`$`-substitution of `replace` never fires here: the replacement text is
always an `encodeURIComponent` image, which cannot contain `$`.) -/
def replaceFirstL (s pat rep : List Char) : List Char :=
  match s with
  | [] => []
  | c :: cs =>
    if startsWithL pat (c :: cs) then rep ++ (c :: cs).drop pat.length
    else c :: replaceFirstL cs pat rep

/-- The placeholder token `\x7bkey\x7d` searched for by `buildUrl`. -/
def mkPh (key : List Char) : List Char := '{' :: key ++ ['}']

/-- Path substitution, the first step of `buildUrl`: for every key of
the argument bag, in order, replace the first occurrence of the token
`\x7bkey\x7d` by the percent-encoded string form of the value. -/
def substPathL (path : List Char) (args : List (String × Value)) : List Char :=
  args.foldl (fun url kv => replaceFirstL url (mkPh kv.1.data) (encodeURIComponentL (jsToString kv.2))) path

/-- String-level wrapper of `substPathL`. -/
def substPath (path : String) (args : List (String × Value)) : String :=
  String.mk (substPathL path.data args)

/-- Resolution of a relative path against the base (`new URL(url, baseUrl)`):
everything after the last `/` of the base pathname is dropped and the
relative path is appended, then encoded.  (Only the leading-slash branch
of `buildUrl` is exercised by the claims; Swagger path templates start
with `/`.) -/
def resolveRelative (base : Url) (url : List Char) : String :=
  let kept := (base.pathname.data.reverse.dropWhile (fun c => c ≠ '/')).reverse
  urlToString { base with pathname := String.mk (pathnameSet (kept ++ url)) }

/-- `buildUrl(path, args)` from `src/index.ts`: substitute path
parameters, then join with the base URL.  A substituted path with a
leading `/` is appended to the base URL's existing path component (the
base pathname is given a trailing `/` and the leading `/` of the path is
dropped); the pathname setter percent-encodes the stored path and
shortens dot segments. -/
def buildUrl (baseUrl : String) (path : String) (args : List (String × Value)) : String :=
  let url := substPathL path.data args
  if startsWithL ['/'] url then
    let baseUrlObj := parseUrl baseUrl
    let basePath :=
      if endsWithL ['/'] baseUrlObj.pathname.data then baseUrlObj.pathname.data
      else baseUrlObj.pathname.data ++ ['/']
    let cleanPath := url.drop 1
    urlToString { baseUrlObj with pathname := String.mk (pathnameSet (basePath ++ cleanPath)) }
  else resolveRelative (parseUrl baseUrl) url

/-! ## JSON payloads and `JSON.stringify(·, null, 2)` -/

/-- JSON values, as carried by HTTP response payloads and error bodies. -/
inductive Json where
  | null
  | bool (b : Bool)
  | num (n : Int)
  | str (s : String)
  | arr (elems : List Json)
  | obj (fields : List (String × Json))
deriving Repr

/-- The escape `JSON.stringify` applies to one character of a string. -/
def jsonEscapeChar (c : Char) : List Char :=
  if c.toNat = 34 then "\\\"".data
  else if c.toNat = 92 then "\\\\".data
  else if c.toNat = 8 then "\\b".data
  else if c.toNat = 12 then "\\f".data
  else if c.toNat = 10 then "\\n".data
  else if c.toNat = 13 then "\\r".data
  else if c.toNat = 9 then "\\t".data
  else if c.toNat < 32 then "\\u00".data ++ [hexLower (c.toNat / 16), hexLower (c.toNat % 16)]
  else [c]

/-- A double-quoted, escaped JSON string literal. -/
def jsonQuote (s : String) : List Char :=
  '"' :: (s.data.map jsonEscapeChar).flatten ++ ['"']

/-- Join rendered items: each on its own line at indentation `ind`,
separated by commas. -/
def sepJoin (sep : List Char) : List (List Char) → List Char
  | [] => []
  | [x] => x
  | x :: y :: rest => x ++ sep ++ sepJoin sep (y :: rest)

mutual
/-- `JSON.stringify(j, null, 2)` at indentation `ind`: the pretty
printing used both for success payloads and error payloads. -/
def strJson (ind : List Char) : Json → List Char
  | .null => "null".data
  | .bool b => if b then "true".data else "false".data
  | .num n => intToStr n
  | .str s => jsonQuote s
  | .arr [] => "[]".data
  | .arr (x :: xs) =>
    let ind' := ind ++ "  ".data
    '[' :: '\n' :: sepJoin (",\n".data) ((strJsonList ind' (x :: xs)).map (ind' ++ ·)) ++
      '\n' :: ind ++ [']']
  | .obj [] => "\x7b\x7d".data
  | .obj (f :: fs) =>
    let ind' := ind ++ "  ".data
    '{' :: '\n' :: sepJoin (",\n".data) ((strJsonObj ind' (f :: fs)).map (ind' ++ ·)) ++
      '\n' :: ind ++ ['}']

/-- Rendered array elements. -/
def strJsonList (ind : List Char) : List Json → List (List Char)
  | [] => []
  | x :: xs => strJson ind x :: strJsonList ind xs

/-- Rendered object members, `"key": value`. -/
def strJsonObj (ind : List Char) : List (String × Json) → List (List Char)
  | [] => []
  | (k, v) :: fs => (jsonQuote k ++ ':' :: ' ' :: strJson ind v) :: strJsonObj ind fs
end

/-- `JSON.stringify(j, null, 2)`. -/
def jsonStringify (j : Json) : String := String.mk (strJson [] j)

/-! ## The data model: parameters, operations, tool descriptors -/

/-- A Swagger parameter declaration, with the attributes the server
reads.  `loc` is the `in` field of the source (`path`, `query`, `body`
or `header`); `type` and `schemaType` model `param.type` and
`param.schema?.type`, absent fields being `none`. -/
structure Parameter where
  name : String
  loc : String
  type : Option String := none
  schemaType : Option String := none
  required : Bool := false
  description : Option String := none
deriving Repr, DecidableEq

/-- A Swagger operation, with the attributes the server reads. -/
structure Operation where
  operationId : Option String := none
  summary : Option String := none
  description : Option String := none
  parameters : List Parameter := []
deriving Repr, DecidableEq

/-- One property of the generated input schema. -/
structure PropEntry where
  type : String
  description : String
deriving Repr, DecidableEq

/-- The generated JSON-Schema-like object describing a tool's arguments. -/
structure InputSchema where
  type : String
  properties : List (String × PropEntry)
  required : List String
deriving Repr, DecidableEq

/-- A generated tool descriptor (`SwaggerTool` in the source). -/
structure SwaggerTool where
  name : String
  description : String
  inputSchema : InputSchema
  method : String
  path : String
  parameters : List Parameter
deriving Repr, DecidableEq

/-- JavaScript `a || b` on optional strings: an absent or empty string
falls through to the default. -/
def jsOrString (o : Option String) (d : String) : String :=
  match o with
  | some s => if s.isEmpty then d else s
  | none => d

/-- `mapSwaggerType` from `src/index.ts`: the Type Mapper. -/
def mapSwaggerType (swaggerType : String) : String :=
  if swaggerType = "integer" then "number"
  else if swaggerType = "boolean" then "boolean"
  else if swaggerType = "array" then "array"
  else if swaggerType = "object" then "object"
  else "string"

/-- Decimal alphanumeric test, the class `[a-zA-Z0-9]` of the sanitising
regex in `generateToolName`. -/
def isAlphaNum (c : Char) : Bool :=
  let n := c.toNat
  (48 ≤ n ∧ n ≤ 57) ∨ (65 ≤ n ∧ n ≤ 90) ∨ (97 ≤ n ∧ n ≤ 122)

/-- `String.prototype.split` with a one-character separator. -/
def splitOnChar (sep : Char) : List Char → List (List Char)
  | [] => [[]]
  | c :: cs =>
    match splitOnChar sep cs with
    | [] => [[]]
    | s :: rest => if c = sep then [] :: s :: rest else (c :: s) :: rest

/-- The path-derived part of a generated tool name: split on `/`, drop
empty segments, turn `\x7bx\x7d` segments into `by_x`, replace
non-alphanumeric characters by `_` elsewhere, join with `_`. -/
def pathToolNameL (path : List Char) : List Char :=
  let pathParts :=
    ((splitOnChar '/' path).filter (fun part => ¬ part.isEmpty)).map fun part =>
      if startsWithL ['{'] part ∧ endsWithL ['}'] part then
        "by_".data ++ (part.drop 1).dropLast
      else part.map (fun c => if isAlphaNum c then c else '_')
  sepJoin ['_'] pathParts

/-- `generateToolName` from `src/index.ts`: use the (truthy) operationId
verbatim after the prefix, otherwise derive the name from method and
path. -/
def generateToolName (pfx method path : String) (operation : Operation) : String :=
  match operation.operationId with
  | some id =>
    if id.isEmpty then pfx ++ lowerAscii method ++ "_" ++ String.mk (pathToolNameL path.data)
    else pfx ++ id
  | none => pfx ++ lowerAscii method ++ "_" ++ String.mk (pathToolNameL path.data)

/-- Modelled from the spec (§4.2), for comparison with the source's
`generateToolName`: "Split the path template on `/`, drop empty
segments.  For each segment: if it is a brace-delimited placeholder
`\x7bx\x7d`, replace with `by_x`; otherwise replace every character
outside `[A-Za-z0-9]` with `_`.  Join transformed segments with `_`.
Final name = prefix + lowercase(method) + `_` + joined segments." -/
def specGeneratedName (pfx method path : String) : String :=
  let segments := (splitOnChar '/' path.data).filter (fun seg => seg ≠ [])
  let transformed := segments.map fun seg =>
    if seg.head? = some '{' ∧ seg.getLast? = some '}' then
      "by_".data ++ (seg.drop 1).dropLast
    else seg.map (fun c => if isAlphaNum c then c else '_')
  pfx ++ lowerAscii method ++ "_" ++ String.mk (sepJoin ['_'] transformed)

/-- JavaScript object assignment `o[k] = v`: update the existing entry
in place, or append a new one. -/
def objInsert {α : Type} (l : List (String × α)) (k : String) (v : α) : List (String × α) :=
  if l.any (fun kv => kv.1 = k) then l.map (fun kv => if kv.1 = k then (k, v) else kv)
  else l ++ [(k, v)]

/-- The schema property generated for one parameter. -/
def paramEntry (param : Parameter) : PropEntry :=
  { type := mapSwaggerType (jsOrString param.type (jsOrString param.schemaType "string"))
    description := jsOrString param.description (param.name ++ " parameter") }

/-- `createToolFromOperation` from `src/index.ts`: one pass over the
parameter list builds the schema properties (object assignment keyed by
name) and the required-name list (appended in parameter order). -/
def createToolFromOperation (name method path : String) (operation : Operation) : SwaggerTool :=
  let parameters := operation.parameters
  let acc := parameters.foldl
    (fun acc param =>
      (objInsert acc.1 param.name (paramEntry param),
       if param.required then acc.2 ++ [param.name] else acc.2))
    ([], [])
  { name := name
    description := jsOrString operation.summary
      (jsOrString operation.description (upperAscii method ++ " " ++ path))
    inputSchema := { type := "object", properties := acc.1, required := acc.2 }
    method := upperAscii method
    path := path
    parameters := parameters }

/-! ## Request building and the invocation proxy -/

/-- The axios request configuration assembled by `callApiTool`.  `params`
is always present; `data` and the content-type header are only attached
when the merged body object has at least one field. -/
structure RequestConfig where
  method : String
  url : String
  params : List (String × Value)
  data : Option (List (String × Value))
  headers : Option (List (String × String))
deriving Repr

/-- JavaScript property read `args[k]` (absent keys give `undefined`,
modelled as `none`). -/
def lookupJs (args : List (String × Value)) (k : String) : Option Value :=
  (args.find? (fun kv => kv.1 = k)).map (fun kv => kv.2)

/-- The own enumerable properties `Object.assign` copies from a source
value: an object contributes its fields, a string its characters under
index keys, an array its elements under index keys, and a number or
boolean contributes nothing. -/
def assignFields : Value → List (String × Value)
  | .obj fields => fields
  | .str s => s.data.enum.map (fun p => (String.mk (natToStr p.1), Value.str (String.mk [p.2])))
  | .arr elems => elems.enum.map (fun p => (String.mk (natToStr p.1), p.2))
  | .num _ => []
  | .bool _ => []

/-- `Object.assign(target, v)`: copy the own enumerable properties of
`v` onto `target`. -/
def objAssign (target : List (String × Value)) (v : Value) : List (String × Value) :=
  (assignFields v).foldl (fun acc kv => objInsert acc kv.1 kv.2) target

/-- The parameter classification loop of `callApiTool`: one pass over
the declared parameters collects the query mapping and merges body
values into a single body object; `path` and `header` locations fall
through the switch. -/
def collectParams (parameters : List Parameter) (args : List (String × Value)) :
    List (String × Value) × List (String × Value) :=
  parameters.foldl
    (fun acc param =>
      match lookupJs args param.name with
      | none => acc
      | some v =>
        if param.loc = "query" then (objInsert acc.1 param.name v, acc.2)
        else if param.loc = "body" then (acc.1, objAssign acc.2 v)
        else acc)
    ([], [])

/-- The collected query mapping on its own (first component of
`collectParams`). -/
def collectedQuery (parameters : List Parameter) (args : List (String × Value)) :
    List (String × Value) :=
  parameters.foldl
    (fun acc param =>
      match lookupJs args param.name with
      | none => acc
      | some v => if param.loc = "query" then objInsert acc param.name v else acc)
    []

/-- The merged body object on its own (second component of
`collectParams`). -/
def mergedBody (parameters : List Parameter) (args : List (String × Value)) :
    List (String × Value) :=
  parameters.foldl
    (fun acc param =>
      match lookupJs args param.name with
      | none => acc
      | some v => if param.loc = "query" then acc
                  else if param.loc = "body" then objAssign acc v
                  else acc)
    []

/-- The request configuration built inside `callApiTool` (lines 176-206
of the source): resolved URL, query params always attached, body and
JSON content-type header only when the merged body object is nonempty. -/
def buildRequestConfig (baseUrl : String) (tool : SwaggerTool) (args : List (String × Value)) :
    RequestConfig :=
  let url := buildUrl baseUrl tool.path args
  let acc := collectParams tool.parameters args
  let bodyData := acc.2
  { method := tool.method
    url := url
    params := acc.1
    data := if bodyData.isEmpty then none else some bodyData
    headers := if bodyData.isEmpty then none else some [("Content-Type", "application/json")] }

/-- Outcome of the outbound HTTP exchange performed by the injected
axios client: a success payload, or a failure that may carry a response
(status code and payload) or only a raw message. -/
inductive HttpOutcome where
  | success (data : Json)
  | failure (response : Option (Nat × Json)) (message : String)

/-- One text content block of a tool-protocol result. -/
structure TextContent where
  type : String
  text : String
deriving Repr, DecidableEq

/-- The tool-protocol result shape returned by `callApiTool`; the source
omits `isError` on success, which the protocol reads as `false`. -/
structure CallToolResult where
  content : List TextContent
  isError : Bool
deriving Repr, DecidableEq

/-- `callApiTool` from `src/index.ts`: build the request, perform the
exchange through the injected client, and encode either outcome as a
normal result value — pretty-printed payload on success, or
`Error calling <tool>: <detail>` flagged `isError` on failure, where
`<detail>` is `HTTP <status>: <payload>` when a response is present and
the raw failure message otherwise. -/
def callApiTool (baseUrl : String) (client : RequestConfig → HttpOutcome)
    (tool : SwaggerTool) (args : List (String × Value)) : CallToolResult :=
  match client (buildRequestConfig baseUrl tool args) with
  | .success data =>
    { content := [{ type := "text", text := jsonStringify data }], isError := false }
  | .failure response message =>
    let errorMessage :=
      match response with
      | some (status, data) => "HTTP " ++ String.mk (natToStr status) ++ ": " ++ jsonStringify data
      | none => message
    { content := [{ type := "text", text := "Error calling " ++ tool.name ++ ": " ++ errorMessage }]
      isError := true }

/-! ## Analysis vocabulary: brace-freeness and path-template shapes -/

/-- A string with neither `\x7b` nor `\x7d`. -/
def braceFree (l : List Char) : Bool := l.all fun c => c ≠ '{' ∧ c ≠ '}'

/-- Does the string contain a brace-delimited placeholder, i.e. a `\x7b`
followed (anywhere later) by a `\x7d`? -/
def hasPlaceholderL : List Char → Bool
  | [] => false
  | c :: cs => (c = '{' && cs.any fun d => d = '}') || hasPlaceholderL cs

/-- One piece of a path template: literal text, or a placeholder
`\x7bkey\x7d`. -/
inductive Piece where
  | lit (s : List Char)
  | ph (key : List Char)
deriving Repr, DecidableEq

/-- The text of one piece. -/
def renderPiece : Piece → List Char
  | .lit s => s
  | .ph k => mkPh k

/-- The path template denoted by a list of pieces. -/
def renderPieces (ps : List Piece) : List Char := (ps.map renderPiece).flatten

/-- The placeholder names of a template, in order. -/
def phNames (ps : List Piece) : List (List Char) :=
  ps.filterMap fun p => match p with | .ph k => some k | .lit _ => none

/-- A well-formed piece: literal text and placeholder names contain no
braces (so the template's braces are exactly its placeholders). -/
def pieceOk : Piece → Bool
  | .lit s => braceFree s
  | .ph k => braceFree k

/-- All pieces well formed. -/
def goodPieces (ps : List Piece) : Bool := ps.all pieceOk

/-- Replace the first placeholder named `k` by the literal `rep`. -/
def replacePh : List Piece → List Char → List Char → List Piece
  | [], _, _ => []
  | .lit s :: ps, k, rep => .lit s :: replacePh ps k rep
  | .ph m :: ps, k, rep => if m = k then .lit rep :: ps else .ph m :: replacePh ps k rep

/-! ## Lemmas: pattern matching and placeholder substitution -/

theorem braceFree_iff {l : List Char} :
    braceFree l = true ↔ ∀ c ∈ l, c ≠ '{' ∧ c ≠ '}' := by
  simp [braceFree]

theorem braceFree_append {a b : List Char} :
    braceFree (a ++ b) = (braceFree a && braceFree b) := by
  simp [braceFree, List.all_append]

theorem hasPlaceholderL_eq_false_of_braceFree {l : List Char}
    (h : braceFree l = true) : hasPlaceholderL l = false := by
  induction l with
  | nil => rfl
  | cons c cs ih =>
    rw [braceFree_iff] at h
    have hc := (h c (by simp)).1
    have hcs : braceFree cs = true := braceFree_iff.mpr fun d hd => h d (by simp [hd])
    simp [hasPlaceholderL, hc, ih hcs]

theorem startsWithL_append_self (pat t : List Char) :
    startsWithL pat (pat ++ t) = true := by
  induction pat with
  | nil => rfl
  | cons p ps ih => simp [startsWithL, ih]

theorem eq_append_of_startsWithL {pat s : List Char}
    (h : startsWithL pat s = true) : s = pat ++ s.drop pat.length := by
  induction pat generalizing s with
  | nil => simp
  | cons p ps ih =>
    match s with
    | [] => simp [startsWithL] at h
    | c :: cs =>
      rw [startsWithL, Bool.and_eq_true, decide_eq_true_iff] at h
      obtain ⟨rfl, h2⟩ := h
      simpa using ih h2

theorem replaceFirstL_cons_pos {pat rep : List Char} {c : Char} {cs : List Char}
    (h : startsWithL pat (c :: cs) = true) :
    replaceFirstL (c :: cs) pat rep = rep ++ (c :: cs).drop pat.length := by
  rw [replaceFirstL, if_pos h]

theorem replaceFirstL_cons_neg {pat rep : List Char} {c : Char} {cs : List Char}
    (h : ¬ startsWithL pat (c :: cs) = true) :
    replaceFirstL (c :: cs) pat rep = c :: replaceFirstL cs pat rep := by
  rw [replaceFirstL, if_neg h]

/-- The pattern `\x7bkey\x7d` cannot match while scanning over text that
contains no `\x7b`: `replace` skips such a chunk unchanged. -/
theorem replaceFirstL_append_of_no_open {s : List Char} (t : List Char)
    {pat : List Char} (rep : List Char)
    (hpat : pat.head? = some '{') (hs : ∀ c ∈ s, c ≠ '{') :
    replaceFirstL (s ++ t) pat rep = s ++ replaceFirstL t pat rep := by
  induction s with
  | nil => rfl
  | cons c cs ih =>
    have hc : c ≠ '{' := hs c (by simp)
    have hnot : ¬ startsWithL pat (c :: (cs ++ t)) = true := by
      cases pat with
      | nil => cases hpat
      | cons p0 ppat =>
        have hp0 : p0 = '{' := by simpa using hpat
        subst hp0
        rw [startsWithL, Bool.and_eq_true, decide_eq_true_iff]
        exact fun h => hc h.1.symm
    rw [List.cons_append, replaceFirstL_cons_neg hnot,
      ih fun d hd => hs d (by simp [hd]), List.cons_append]

/-- Matching `key\x7d` against `name\x7d…` succeeds exactly when the two
(close-brace-free) names coincide. -/
theorem startsWithL_close (k : List Char) :
    ∀ (m t : List Char), (∀ c ∈ k, c ≠ '}') → (∀ c ∈ m, c ≠ '}') →
      (startsWithL (k ++ ['}']) (m ++ '}' :: t) = true ↔ k = m) := by
  induction k with
  | nil =>
    intro m t _ hm
    match m with
    | [] => simp [startsWithL]
    | b :: m' =>
      have hb : b ≠ '}' := hm b (by simp)
      simp only [List.nil_append, List.cons_append, startsWithL, Bool.and_eq_true,
        decide_eq_true_iff]
      constructor
      · intro h; exact absurd h.1.symm hb
      · intro h; cases h
  | cons a k' ih =>
    intro m t hk hm
    match m with
    | [] =>
      have ha : a ≠ '}' := hk a (by simp)
      simp only [List.cons_append, List.nil_append, startsWithL, Bool.and_eq_true,
        decide_eq_true_iff]
      constructor
      · intro h; exact absurd h.1 ha
      · intro h; cases h
    | b :: m' =>
      have h1 := ih m' t (fun c hc => hk c (by simp [hc])) (fun c hc => hm c (by simp [hc]))
      simp only [List.cons_append, startsWithL, Bool.and_eq_true, decide_eq_true_iff]
      constructor
      · intro h
        rw [h.1, h1.mp h.2]
      · intro h
        cases h
        exact ⟨rfl, h1.mpr rfl⟩

theorem renderPieces_nil : renderPieces [] = [] := rfl

theorem renderPieces_cons (p : Piece) (ps : List Piece) :
    renderPieces (p :: ps) = renderPiece p ++ renderPieces ps := by
  simp [renderPieces]

theorem goodPieces_cons {p : Piece} {ps : List Piece} :
    goodPieces (p :: ps) = (pieceOk p && goodPieces ps) := by
  simp [goodPieces]

theorem no_open_of_braceFree {s : List Char} (h : braceFree s = true) :
    ∀ c ∈ s, c ≠ '{' := fun c hc => ((braceFree_iff.mp h) c hc).1

theorem no_close_of_braceFree {s : List Char} (h : braceFree s = true) :
    ∀ c ∈ s, c ≠ '}' := fun c hc => ((braceFree_iff.mp h) c hc).2

/-- `replace` on a rendered template: replacing the token `\x7bk\x7d`
replaces exactly the first placeholder named `k` (and nothing when there
is none). -/
theorem replaceFirstL_renderPieces (k rep : List Char) (hk : braceFree k = true) :
    ∀ ps : List Piece, goodPieces ps = true →
      replaceFirstL (renderPieces ps) (mkPh k) rep = renderPieces (replacePh ps k rep) := by
  intro ps
  induction ps with
  | nil => intro _; rfl
  | cons p ps ih =>
    intro hgood
    rw [goodPieces_cons, Bool.and_eq_true] at hgood
    obtain ⟨hp, hps⟩ := hgood
    match p with
    | .lit s =>
      have hs : braceFree s = true := hp
      rw [renderPieces_cons]
      show replaceFirstL (s ++ renderPieces ps) (mkPh k) rep = _
      rw [replaceFirstL_append_of_no_open (renderPieces ps) rep (by rfl) (no_open_of_braceFree hs),
        ih hps]
      simp [replacePh, renderPieces_cons, renderPiece]
    | .ph m =>
      have hm : braceFree m = true := hp
      have hrender : renderPieces (Piece.ph m :: ps) = '{' :: (m ++ '}' :: renderPieces ps) := by
        rw [renderPieces_cons]
        simp [renderPiece, mkPh]
      have hmatch : startsWithL (mkPh k) ('{' :: (m ++ '}' :: renderPieces ps))
          = startsWithL (k ++ ['}']) (m ++ '}' :: renderPieces ps) := by
        simp [mkPh, startsWithL]
      by_cases hkm : m = k
      · subst hkm
        have hsw : startsWithL (mkPh m) ('{' :: (m ++ '}' :: renderPieces ps)) = true := by
          have : ('{' :: (m ++ '}' :: renderPieces ps)) = mkPh m ++ renderPieces ps := by
            simp [mkPh]
          rw [this]
          exact startsWithL_append_self _ _
        rw [hrender, replaceFirstL_cons_pos hsw]
        have hdrop : ('{' :: (m ++ '}' :: renderPieces ps)).drop (mkPh m).length
            = renderPieces ps := by
          have : ('{' :: (m ++ '}' :: renderPieces ps)) = mkPh m ++ renderPieces ps := by
            simp [mkPh]
          rw [this, List.drop_left]
        rw [hdrop]
        simp [replacePh, renderPieces_cons, renderPiece]
      · have hsw : ¬ startsWithL (mkPh k) ('{' :: (m ++ '}' :: renderPieces ps)) = true := by
          rw [hmatch,
            startsWithL_close k m (renderPieces ps) (no_close_of_braceFree hk)
              (no_close_of_braceFree hm)]
          exact fun h => hkm h.symm
        rw [hrender, replaceFirstL_cons_neg hsw,
          replaceFirstL_append_of_no_open ('}' :: renderPieces ps) rep (by rfl)
            (no_open_of_braceFree hm)]
        have hclose : ¬ startsWithL (mkPh k) ('}' :: renderPieces ps) = true := by
          simp only [mkPh, startsWithL, Bool.and_eq_true, decide_eq_true_iff]
          rintro ⟨h, -⟩
          cases h
        rw [replaceFirstL_cons_neg hclose, ih hps]
        simp [replacePh, hkm, renderPieces_cons, renderPiece, mkPh]

theorem phNames_nil : phNames [] = [] := rfl

theorem phNames_cons_lit (s : List Char) (ps : List Piece) :
    phNames (Piece.lit s :: ps) = phNames ps := rfl

theorem phNames_cons_ph (k : List Char) (ps : List Piece) :
    phNames (Piece.ph k :: ps) = k :: phNames ps := rfl

theorem phNames_replacePh_sublist (ps : List Piece) (k rep : List Char) :
    List.Sublist (phNames (replacePh ps k rep)) (phNames ps) := by
  induction ps with
  | nil => exact List.Sublist.refl _
  | cons p ps ih =>
    match p with
    | .lit s =>
      rw [replacePh, phNames_cons_lit, phNames_cons_lit]
      exact ih
    | .ph m =>
      by_cases hkm : m = k
      · subst hkm
        rw [replacePh, if_pos rfl, phNames_cons_lit, phNames_cons_ph]
        exact List.sublist_cons_self _ _
      · rw [replacePh, if_neg hkm, phNames_cons_ph, phNames_cons_ph]
        exact ih.cons₂ m

theorem not_mem_phNames_replacePh (ps : List Piece) (k rep : List Char)
    (hnd : (phNames ps).Nodup) : k ∉ phNames (replacePh ps k rep) := by
  induction ps with
  | nil => simp [replacePh, phNames_nil]
  | cons p ps ih =>
    match p with
    | .lit s =>
      rw [phNames_cons_lit] at hnd
      rw [replacePh, phNames_cons_lit]
      exact ih hnd
    | .ph m =>
      rw [phNames_cons_ph] at hnd
      by_cases hkm : m = k
      · subst hkm
        rw [replacePh, if_pos rfl, phNames_cons_lit]
        exact (List.nodup_cons.mp hnd).1
      · rw [replacePh, if_neg hkm, phNames_cons_ph]
        intro hmem
        rcases List.mem_cons.mp hmem with h | h
        · exact hkm h.symm
        · exact ih (List.nodup_cons.mp hnd).2 h

theorem goodPieces_replacePh (ps : List Piece) (k rep : List Char)
    (hrep : braceFree rep = true) (h : goodPieces ps = true) :
    goodPieces (replacePh ps k rep) = true := by
  induction ps with
  | nil => simp [replacePh, goodPieces]
  | cons p ps ih =>
    rw [goodPieces_cons, Bool.and_eq_true] at h
    match p with
    | .lit s =>
      rw [replacePh, goodPieces_cons, Bool.and_eq_true]
      exact ⟨h.1, ih h.2⟩
    | .ph m =>
      by_cases hkm : m = k
      · subst hkm
        rw [replacePh, if_pos rfl, goodPieces_cons, Bool.and_eq_true]
        exact ⟨hrep, h.2⟩
      · rw [replacePh, if_neg hkm, goodPieces_cons, Bool.and_eq_true]
        exact ⟨h.1, ih h.2⟩

theorem renderPieces_braceFree (ps : List Piece) (hgood : goodPieces ps = true)
    (hnone : phNames ps = []) : braceFree (renderPieces ps) = true := by
  induction ps with
  | nil => rfl
  | cons p ps ih =>
    rw [goodPieces_cons, Bool.and_eq_true] at hgood
    match p with
    | .lit s =>
      rw [phNames_cons_lit] at hnone
      rw [renderPieces_cons, braceFree_append, Bool.and_eq_true]
      exact ⟨hgood.1, ih hgood.2 hnone⟩
    | .ph m =>
      exfalso
      rw [phNames_cons_ph] at hnone
      cases hnone

theorem hexUpper_ne_braces (n : Nat) : hexUpper n ≠ '{' ∧ hexUpper n ≠ '}' := by
  rcases Nat.lt_or_ge n 15 with h | h
  · interval_cases n <;> decide
  · obtain ⟨k, rfl⟩ : ∃ k, n = k + 15 := ⟨n - 15, by omega⟩
    exact (by decide : ('F' : Char) ≠ '{' ∧ ('F' : Char) ≠ '}')

theorem percentByte_braceFree (b : Nat) : braceFree (percentByte b) = true := by
  rw [braceFree_iff]
  intro c hc
  simp only [percentByte, List.mem_cons, List.not_mem_nil, or_false] at hc
  rcases hc with rfl | rfl | rfl
  · decide
  · exact hexUpper_ne_braces _
  · exact hexUpper_ne_braces _

theorem encodeURIComponentL_braceFree (l : List Char) :
    braceFree (encodeURIComponentL l) = true := by
  rw [braceFree_iff]
  intro c hc
  rw [encodeURIComponentL, List.mem_flatten] at hc
  obtain ⟨chunk, hchunk, hcmem⟩ := hc
  rw [List.mem_map] at hchunk
  obtain ⟨d, _, hd⟩ := hchunk
  by_cases hu : uriUnreserved d = true
  · rw [if_pos hu] at hd
    subst hd
    rw [List.mem_singleton] at hcmem
    subst hcmem
    constructor
    · intro h; rw [h] at hu; exact absurd hu (by decide)
    · intro h; rw [h] at hu; exact absurd hu (by decide)
  · rw [if_neg hu] at hd
    subst hd
    rw [List.mem_flatten] at hcmem
    obtain ⟨pb, hpb, hcpb⟩ := hcmem
    rw [List.mem_map] at hpb
    obtain ⟨b, _, hb⟩ := hpb
    subst hb
    exact braceFree_iff.mp (percentByte_braceFree b) c hcpb

theorem pathEncodeL_braceFree (l : List Char) :
    braceFree (pathEncodeL l) = true := by
  rw [braceFree_iff]
  intro c hc
  rw [pathEncodeL, List.mem_flatten] at hc
  obtain ⟨chunk, hchunk, hcmem⟩ := hc
  rw [List.mem_map] at hchunk
  obtain ⟨d, _, hd⟩ := hchunk
  by_cases hp : pathEncodeSet d = true
  · rw [if_pos hp] at hd
    subst hd
    rw [List.mem_flatten] at hcmem
    obtain ⟨pb, hpb, hcpb⟩ := hcmem
    rw [List.mem_map] at hpb
    obtain ⟨b, _, hb⟩ := hpb
    subst hb
    exact braceFree_iff.mp (percentByte_braceFree b) c hcpb
  · rw [if_neg hp] at hd
    subst hd
    rw [List.mem_singleton] at hcmem
    subst hcmem
    constructor
    · intro h; rw [h] at hp; exact absurd (by decide) hp
    · intro h; rw [h] at hp; exact absurd (by decide) hp

theorem pathEncodeL_append (a b : List Char) :
    pathEncodeL (a ++ b) = pathEncodeL a ++ pathEncodeL b := by
  simp [pathEncodeL]

theorem pathEncodeL_of_plain {l : List Char} (h : ∀ c ∈ l, pathEncodeSet c = false) :
    pathEncodeL l = l := by
  induction l with
  | nil => rfl
  | cons c cs ih =>
    have hc : pathEncodeSet c = false := h c (by simp)
    have hstep : pathEncodeL (c :: cs)
        = (if pathEncodeSet c then ((utf8Bytes c).map percentByte).flatten else [c])
          ++ pathEncodeL cs := by
      simp [pathEncodeL]
    rw [hstep, hc]
    simp [ih fun d hd => h d (by simp [hd])]

/-- After substituting an argument bag that covers all (pairwise
distinct, brace-free) placeholder names of a well-formed template, the
substituted path contains no brace at all. -/
theorem substPathL_renderPieces_braceFree :
    ∀ (args : List (String × Value)) (ps : List Piece),
      goodPieces ps = true → (phNames ps).Nodup →
      (∀ kv ∈ args, braceFree kv.1.data = true) →
      (∀ m ∈ phNames ps, ∃ kv ∈ args, kv.1.data = m) →
      braceFree (substPathL (renderPieces ps) args) = true := by
  intro args
  induction args with
  | nil =>
    intro ps hgood _ _ hcov
    have hnone : phNames ps = [] := by
      cases h : phNames ps with
      | nil => rfl
      | cons m ms =>
        obtain ⟨kv, hkv, -⟩ := hcov m (by rw [h]; exact List.mem_cons_self _ _)
        cases hkv
    exact renderPieces_braceFree ps hgood hnone
  | cons kv rest ih =>
    intro ps hgood hnd hkeys hcov
    have hk : braceFree kv.1.data = true := hkeys kv (by simp)
    have henc : braceFree (encodeURIComponentL (jsToString kv.2)) = true :=
      encodeURIComponentL_braceFree _
    have hstep : substPathL (renderPieces ps) (kv :: rest)
        = substPathL (renderPieces (replacePh ps kv.1.data (encodeURIComponentL (jsToString kv.2)))) rest := by
      rw [substPathL, List.foldl_cons, replaceFirstL_renderPieces _ _ hk ps hgood]
      rfl
    rw [hstep]
    apply ih
    · exact goodPieces_replacePh ps _ _ henc hgood
    · exact (phNames_replacePh_sublist ps _ _).nodup hnd
    · exact fun kv' h => hkeys kv' (by simp [h])
    · intro m hm
      have hmem : m ∈ phNames ps := (phNames_replacePh_sublist ps _ _).subset hm
      obtain ⟨kv', hkv', hkv'eq⟩ := hcov m hmem
      rcases List.mem_cons.mp hkv' with h | h
      · exfalso
        subst h
        rw [hkv'eq] at hm
        exact not_mem_phNames_replacePh ps _ _ hnd hm
      · exact ⟨kv', h, hkv'eq⟩

/-! ## Lemmas: URL parsing and composition -/

theorem splitAtSub_eq (pat : List Char) :
    ∀ (l a b : List Char), splitAtSub l pat = some (a, b) → l = a ++ pat ++ b := by
  intro l
  induction l with
  | nil =>
    intro a b h
    rw [splitAtSub] at h
    by_cases hsw : startsWithL pat [] = true
    · rw [if_pos hsw] at h
      injection h with h'
      injection h' with h1 h2
      have hpat : pat = [] := by
        cases pat with
        | nil => rfl
        | cons p ps => exact absurd hsw (by simp [startsWithL])
      subst hpat
      subst h1
      simp [← h2]
    · rw [if_neg hsw] at h
      cases h
  | cons c cs ih =>
    intro a b h
    rw [splitAtSub] at h
    by_cases hsw : startsWithL pat (c :: cs) = true
    · rw [if_pos hsw] at h
      injection h with h'
      injection h' with h1 h2
      subst h1
      subst h2
      simpa using eq_append_of_startsWithL hsw
    · rw [if_neg hsw] at h
      simp only [Option.map_eq_some'] at h
      obtain ⟨⟨a', b'⟩, hsome, heq⟩ := h
      injection heq with h1 h2
      subst h1
      subst h2
      have hcs := ih a' b' hsome
      rw [hcs]
      simp [List.append_assoc]

theorem parseUrl_braceFree {s : String} (h : braceFree s.data = true) :
    braceFree (parseUrl s).scheme.data = true ∧ braceFree (parseUrl s).host.data = true := by
  unfold parseUrl
  cases heq : splitAtSub s.data "://".data with
  | none => exact ⟨rfl, h⟩
  | some p =>
    obtain ⟨sch, rest⟩ := p
    have hdecomp := splitAtSub_eq _ _ _ _ heq
    have hsch : braceFree sch = true := by
      rw [hdecomp, braceFree_append, braceFree_append, Bool.and_eq_true, Bool.and_eq_true] at h
      exact h.1.1
    have hrest : braceFree rest = true := by
      rw [hdecomp, braceFree_append, Bool.and_eq_true] at h
      exact h.2
    refine ⟨hsch, braceFree_iff.mpr ?_⟩
    intro c hc
    exact braceFree_iff.mp hrest c ((List.takeWhile_sublist _).subset hc)

theorem urlToString_data (u : Url) :
    (urlToString u).data = u.scheme.data ++ "://".data ++ u.host.data ++ u.pathname.data := by
  simp [urlToString, String.data_append]

theorem urlToString_braceFree {u : Url} (h1 : braceFree u.scheme.data = true)
    (h2 : braceFree u.host.data = true) (h3 : braceFree u.pathname.data = true) :
    braceFree (urlToString u).data = true := by
  rw [urlToString_data, braceFree_append, braceFree_append, braceFree_append]
  rw [h1, h2, h3]
  decide

theorem pathEncodeL_cons (c : Char) (l : List Char) :
    pathEncodeL (c :: l)
      = (if pathEncodeSet c then ((utf8Bytes c).map percentByte).flatten else [c])
        ++ pathEncodeL l := by
  simp [pathEncodeL]

theorem splitOnSeps_ne_nil : ∀ l : List Char, splitOnSeps l ≠ [] := by
  intro l
  cases l with
  | nil => simp [splitOnSeps]
  | cons c cs =>
    rw [splitOnSeps]
    cases splitOnSeps cs with
    | nil => simp
    | cons s rest => by_cases h : isPathSep c = true <;> simp [h]

theorem processSegs_braceFree :
    ∀ (ss acc : List (List Char)), (∀ s ∈ acc, braceFree s = true) →
      ∀ s ∈ processSegs acc ss, braceFree s = true := by
  intro ss
  induction ss with
  | nil =>
    intro acc hacc s hs
    exact hacc s hs
  | cons seg tail ih =>
    intro acc hacc s hs
    cases tail with
    | nil =>
      simp only [processSegs] at hs
      by_cases hd : isDoubleDotSeg (pathEncodeL seg) = true
      · rw [if_pos hd] at hs
        rcases List.mem_append.mp hs with h | h
        · exact hacc s ((List.dropLast_sublist acc).subset h)
        · rw [List.mem_singleton] at h; subst h; rfl
      · rw [if_neg hd] at hs
        by_cases hsg : isSingleDotSeg (pathEncodeL seg) = true
        · rw [if_pos hsg] at hs
          rcases List.mem_append.mp hs with h | h
          · exact hacc s h
          · rw [List.mem_singleton] at h; subst h; rfl
        · rw [if_neg hsg] at hs
          rcases List.mem_append.mp hs with h | h
          · exact hacc s h
          · rw [List.mem_singleton] at h; subst h; exact pathEncodeL_braceFree seg
    | cons seg' rest =>
      simp only [processSegs] at hs
      by_cases hd : isDoubleDotSeg (pathEncodeL seg) = true
      · rw [if_pos hd] at hs
        exact ih _ (fun t ht => hacc t ((List.dropLast_sublist acc).subset ht)) s hs
      · rw [if_neg hd] at hs
        by_cases hsg : isSingleDotSeg (pathEncodeL seg) = true
        · rw [if_pos hsg] at hs
          exact ih _ hacc s hs
        · rw [if_neg hsg] at hs
          refine ih _ ?_ s hs
          intro t ht
          rcases List.mem_append.mp ht with h | h
          · exact hacc t h
          · rw [List.mem_singleton] at h; subst h; exact pathEncodeL_braceFree seg

theorem serializePath_braceFree (segs : List (List Char))
    (h : ∀ s ∈ segs, braceFree s = true) : braceFree (serializePath segs) = true := by
  rw [braceFree_iff]
  intro c hc
  rw [serializePath, List.mem_flatten] at hc
  obtain ⟨chunk, hchunk, hcm⟩ := hc
  rw [List.mem_map] at hchunk
  obtain ⟨s, hs, rfl⟩ := hchunk
  rcases List.mem_cons.mp hcm with rfl | hmem
  · decide
  · exact braceFree_iff.mp (h s hs) c hmem

theorem pathnameSet_braceFree (input : List Char) :
    braceFree (pathnameSet input) = true := by
  unfold pathnameSet
  apply serializePath_braceFree
  exact processSegs_braceFree _ [] (fun s hs => absurd hs (List.not_mem_nil s))

theorem serializePath_cons (x : List Char) (xs : List (List Char)) :
    serializePath (x :: xs) = '/' :: x ++ serializePath xs := by
  simp [serializePath]

theorem splitOnSeps_append_sep : ∀ (x y : List Char),
    splitOnSeps (x ++ '/' :: y) = splitOnSeps x ++ splitOnSeps y := by
  intro x y
  induction x with
  | nil =>
    cases hy : splitOnSeps y with
    | nil => exact absurd hy (splitOnSeps_ne_nil y)
    | cons s rest =>
      have hsplit : splitOnSeps ('/' :: y) = [] :: s :: rest := by
        rw [splitOnSeps, hy]
        simp [isPathSep]
      rw [List.nil_append, hsplit]
      rfl
  | cons c x' ih =>
    cases hx : splitOnSeps x' with
    | nil => exact absurd hx (splitOnSeps_ne_nil x')
    | cons s rest =>
      have h1 : splitOnSeps (c :: (x' ++ '/' :: y))
          = if isPathSep c then [] :: s :: (rest ++ splitOnSeps y)
            else (c :: s) :: (rest ++ splitOnSeps y) := by
        rw [splitOnSeps, ih, hx, List.cons_append]
      have h2 : splitOnSeps (c :: x')
          = if isPathSep c then [] :: s :: rest else (c :: s) :: rest := by
        rw [splitOnSeps, hx]
      rw [List.cons_append, h1, h2]
      by_cases hc : isPathSep c = true
      · simp [hc]
      · simp [hc]

theorem processSegs_no_dots :
    ∀ (ss acc : List (List Char)),
      (∀ s ∈ ss, isDoubleDotSeg (pathEncodeL s) = false ∧ isSingleDotSeg (pathEncodeL s) = false) →
      processSegs acc ss = acc ++ ss.map pathEncodeL := by
  intro ss
  induction ss with
  | nil => intro acc _; simp [processSegs]
  | cons seg tail ih =>
    intro acc h
    have hd := (h seg (by simp)).1
    have hsg := (h seg (by simp)).2
    cases tail with
    | nil =>
      simp only [processSegs]
      rw [if_neg (by simp [hd]), if_neg (by simp [hsg])]
      simp
    | cons seg' rest =>
      simp only [processSegs]
      rw [if_neg (by simp [hd]), if_neg (by simp [hsg]),
        ih (acc ++ [pathEncodeL seg]) (fun t ht => h t (by simp [ht]))]
      simp

theorem serializePath_splitOnSeps : ∀ (body : List Char), '\\' ∉ body →
    serializePath ((splitOnSeps body).map pathEncodeL) = '/' :: pathEncodeL body := by
  intro body
  induction body with
  | nil => intro _; rfl
  | cons c cs ih =>
    intro hbs
    have hcs : '\\' ∉ cs := fun h => hbs (by simp [h])
    have hcn : c ≠ '\\' := fun h => hbs (by simp [h])
    cases hs : splitOnSeps cs with
    | nil => exact absurd hs (splitOnSeps_ne_nil cs)
    | cons s rest =>
      have ih' := ih hcs
      rw [hs] at ih'
      by_cases hc : isPathSep c = true
      · have hcslash : c = '/' := by
          rcases (by simpa [isPathSep] using hc : c = '/' ∨ c = '\\') with h | h
          · exact h
          · exact absurd h hcn
        subst hcslash
        have hsplit : splitOnSeps ('/' :: cs) = [] :: s :: rest := by
          rw [splitOnSeps, hs]
          simp [isPathSep]
        rw [hsplit, List.map_cons, serializePath_cons, ih',
          pathEncodeL_cons '/' cs, if_neg (by decide : ¬ pathEncodeSet '/' = true)]
        rfl
      · have hsplit : splitOnSeps (c :: cs) = (c :: s) :: rest := by
          rw [splitOnSeps, hs]
          simp [hc]
        have ih2 : pathEncodeL s ++ serializePath (rest.map pathEncodeL) = pathEncodeL cs := by
          rw [List.map_cons, serializePath_cons] at ih'
          exact (List.cons_eq_cons.mp ih').2
        rw [hsplit, List.map_cons, serializePath_cons, pathEncodeL_cons c s,
          pathEncodeL_cons c cs, ← ih2]
        simp [List.append_assoc]

theorem noDotSegs_iff {l : List Char} :
    noDotSegs l = true
      ↔ '\\' ∉ l ∧ ∀ s ∈ splitOnSeps l,
          isDoubleDotSeg (pathEncodeL s) = false ∧ isSingleDotSeg (pathEncodeL s) = false := by
  simp [noDotSegs, List.all_eq_true]

theorem pathnameSet_of_noDotSegs {body : List Char} (h : noDotSegs body = true) :
    pathnameSet ('/' :: body) = '/' :: pathEncodeL body := by
  obtain ⟨hbs, hsegs⟩ := noDotSegs_iff.mp h
  show serializePath (processSegs [] (splitOnSeps body)) = _
  rw [processSegs_no_dots (splitOnSeps body) [] hsegs, List.nil_append]
  exact serializePath_splitOnSeps body hbs

theorem noDotSegs_of_sep_cons {t : List Char} (h : noDotSegs ('/' :: t) = true) :
    noDotSegs t = true := by
  obtain ⟨hbs, hsegs⟩ := noDotSegs_iff.mp h
  refine noDotSegs_iff.mpr ⟨fun hm => hbs (by simp [hm]), ?_⟩
  intro s hs
  apply hsegs
  have hsplit : splitOnSeps ('/' :: t) = [] :: splitOnSeps t := by
    rw [splitOnSeps]
    cases ht : splitOnSeps t with
    | nil => exact absurd ht (splitOnSeps_ne_nil t)
    | cons a b => simp [isPathSep]
  rw [hsplit]
  exact List.mem_cons_of_mem _ hs

theorem noDotSegs_append_sep {a b : List Char} (ha : noDotSegs a = true)
    (hb : noDotSegs b = true) : noDotSegs (a ++ '/' :: b) = true := by
  obtain ⟨has, hasegs⟩ := noDotSegs_iff.mp ha
  obtain ⟨hbs, hbsegs⟩ := noDotSegs_iff.mp hb
  refine noDotSegs_iff.mpr ⟨?_, ?_⟩
  · intro hm
    rcases List.mem_append.mp hm with h | h
    · exact has h
    · rcases List.mem_cons.mp h with h' | h'
      · exact absurd h' (by decide)
      · exact hbs h'
  · intro s hs
    rw [splitOnSeps_append_sep] at hs
    rcases List.mem_append.mp hs with h | h
    · exact hasegs s h
    · exact hbsegs s h

theorem noDotSegs_append_sep_left {a b : List Char}
    (h : noDotSegs (a ++ '/' :: b) = true) : noDotSegs a = true := by
  obtain ⟨hbs, hsegs⟩ := noDotSegs_iff.mp h
  refine noDotSegs_iff.mpr ⟨fun hm => hbs (by simp [hm]), ?_⟩
  intro s hs
  apply hsegs
  rw [splitOnSeps_append_sep]
  exact List.mem_append_left _ hs

theorem eq_dropLast_append_of_getLast :
    ∀ (l : List Char) (c : Char), l.getLast? = some c → l = l.dropLast ++ [c] := by
  intro l
  induction l with
  | nil => intro c h; cases h
  | cons a t ih =>
    intro c h
    cases t with
    | nil =>
      simp only [List.getLast?_singleton, Option.some.injEq] at h
      subst h
      rfl
    | cons b t' =>
      rw [List.getLast?_cons_cons] at h
      have h2 := ih c h
      calc a :: b :: t' = a :: ((b :: t').dropLast ++ [c]) := by rw [← h2]
        _ = (a :: b :: t').dropLast ++ [c] := by simp

theorem dropWhile_head_sat (p : Char → Bool) :
    ∀ (l : List Char) (c : Char) (t : List Char), l.dropWhile p = c :: t → p c = false := by
  intro l
  induction l with
  | nil => intro c t h; cases h
  | cons a l' ih =>
    intro c t h
    rw [List.dropWhile_cons] at h
    by_cases hp : p a = true
    · rw [if_pos hp] at h
      exact ih c t h
    · rw [if_neg hp] at h
      injection h with h1 _
      subst h1
      simpa using hp

theorem parseUrl_pathname_head (s : String) :
    (parseUrl s).pathname.data.head? = some '/' := by
  unfold parseUrl
  cases heq : splitAtSub s.data "://".data with
  | none => rfl
  | some p =>
    obtain ⟨sch, rest⟩ := p
    by_cases he : (List.dropWhile (fun c => decide (c ≠ '/')) rest).isEmpty = true
    · show (if (List.dropWhile (fun c => decide (c ≠ '/')) rest).isEmpty = true then ("/" : String)
        else String.mk (List.dropWhile (fun c => decide (c ≠ '/')) rest)).data.head? = some '/'
      rw [if_pos he]
      rfl
    · show (if (List.dropWhile (fun c => decide (c ≠ '/')) rest).isEmpty = true then ("/" : String)
        else String.mk (List.dropWhile (fun c => decide (c ≠ '/')) rest)).data.head? = some '/'
      rw [if_neg he]
      cases hd : List.dropWhile (fun c => decide (c ≠ '/')) rest with
      | nil => rw [hd] at he; exact absurd rfl he
      | cons c t =>
        have hc : c = '/' := by simpa using dropWhile_head_sat _ rest c t hd
        subst hc
        rfl

/-- Whatever the substituted path looks like, the serialised result of
`buildUrl` contains no brace: the pathname setter percent-encodes them
(dot-segment shortening only removes segments), and a brace-free base
URL contributes brace-free scheme and host. -/
theorem buildUrl_braceFree (baseUrl path : String) (args : List (String × Value))
    (hbase : braceFree baseUrl.data = true) :
    braceFree (buildUrl baseUrl path args).data = true := by
  obtain ⟨hsch, hhost⟩ := parseUrl_braceFree hbase
  rw [buildUrl]
  by_cases hsw : startsWithL ['/'] (substPathL path.data args) = true
  · rw [if_pos hsw]
    exact urlToString_braceFree hsch hhost (pathnameSet_braceFree _)
  · rw [if_neg hsw]
    exact urlToString_braceFree hsch hhost (pathnameSet_braceFree _)

/-! ## Lemmas: JavaScript object building -/

theorem objInsert_of_not_key {α : Type} {l : List (String × α)} {k : String} (v : α)
    (h : l.all (fun kv => kv.1 ≠ k) = true) : objInsert l k v = l ++ [(k, v)] := by
  rw [objInsert, if_neg]
  intro hany
  rw [List.any_eq_true] at hany
  obtain ⟨kv, hkv, hk⟩ := hany
  exact absurd (of_decide_eq_true hk) (of_decide_eq_true (List.all_eq_true.mp h kv hkv))

/-- Folding JavaScript assignments of entries with pairwise-distinct
keys, none already present, appends them in order. -/
theorem foldl_objInsert {α β : Type} (key : β → String) (val : β → α) :
    ∀ (l : List β) (acc : List (String × α)),
      (l.map key).Nodup → (∀ b ∈ l, acc.all (fun kv => kv.1 ≠ key b) = true) →
      l.foldl (fun acc b => objInsert acc (key b) (val b)) acc
        = acc ++ l.map (fun b => (key b, val b)) := by
  intro l
  induction l with
  | nil => intro acc _ _; simp
  | cons b l ih =>
    intro acc hnd hacc
    rw [List.foldl_cons, objInsert_of_not_key (val b) (hacc b (by simp))]
    rw [List.map_cons] at hnd
    have hnd' := (List.nodup_cons.mp hnd).2
    have hmem := (List.nodup_cons.mp hnd).1
    rw [ih (acc ++ [(key b, val b)]) hnd' ?_]
    · simp
    · intro b' hb'
      rw [List.all_append, Bool.and_eq_true]
      refine ⟨hacc b' (by simp [hb']), ?_⟩
      simp only [List.all_cons, List.all_nil, Bool.and_true]
      refine decide_eq_true ?_
      intro hkk
      exact hmem (hkk ▸ List.mem_map_of_mem key hb')

/-- Assignments with fresh distinct keys into an empty object yield
exactly the entry list. -/
theorem foldl_objInsert_nil {α : Type} (l : List (String × α))
    (h : (l.map Prod.fst).Nodup) :
    l.foldl (fun acc kv => objInsert acc kv.1 kv.2) [] = l := by
  have heq : (fun (acc : List (String × α)) (kv : String × α) => objInsert acc kv.1 kv.2)
      = fun acc kv => objInsert acc (Prod.fst kv) (Prod.snd kv) := rfl
  rw [heq, foldl_objInsert Prod.fst Prod.snd l [] h (by intro b _; rfl)]
  simp

/-- A fold that builds a pair componentwise is the pair of the
componentwise folds. -/
theorem pair_foldl_split {α β δ : Type} (f : α → δ → α) (g : β → δ → β) :
    ∀ (l : List δ) (a : α) (b : β),
      l.foldl (fun acc d => (f acc.1 d, g acc.2 d)) (a, b) = (l.foldl f a, l.foldl g b) := by
  intro l
  induction l with
  | nil => intro a b; rfl
  | cons d l ih => intro a b; rw [List.foldl_cons, List.foldl_cons, List.foldl_cons]; exact ih _ _

/-- The single classification pass of `callApiTool` computes the query
mapping and the merged body independently. -/
theorem collectParams_eq (parameters : List Parameter) (args : List (String × Value)) :
    collectParams parameters args = (collectedQuery parameters args, mergedBody parameters args) := by
  rw [collectParams, collectedQuery, mergedBody]
  have hfun : (fun (acc : List (String × Value) × List (String × Value)) param =>
      match lookupJs args param.name with
      | none => acc
      | some v =>
        if param.loc = "query" then (objInsert acc.1 param.name v, acc.2)
        else if param.loc = "body" then (acc.1, objAssign acc.2 v)
        else acc)
      = fun acc param =>
        ((fun a (param : Parameter) =>
            match lookupJs args param.name with
            | none => a
            | some v => if param.loc = "query" then objInsert a param.name v else a) acc.1 param,
         (fun b (param : Parameter) =>
            match lookupJs args param.name with
            | none => b
            | some v => if param.loc = "query" then b
                        else if param.loc = "body" then objAssign b v
                        else b) acc.2 param) := by
    funext acc param
    cases hlu : lookupJs args param.name with
    | none => simp [hlu]
    | some v =>
      by_cases hq : param.loc = "query"
      · simp [hlu, hq]
      · by_cases hb : param.loc = "body" <;> simp [hlu, hq, hb]
  rw [hfun]
  exact pair_foldl_split
    (fun a param =>
      match lookupJs args param.name with
      | none => a
      | some v => if param.loc = "query" then objInsert a param.name v else a)
    (fun b param =>
      match lookupJs args param.name with
      | none => b
      | some v => if param.loc = "query" then b
                  else if param.loc = "body" then objAssign b v
                  else b)
    parameters [] []

/-! ## Lemmas: decimal printing is injective -/

/-- Value of a decimal digit character. -/
def digitVal (c : Char) : Nat := c.toNat - 48

/-- Value of a decimal string, most significant digit first. -/
def digitsVal (l : List Char) : Nat := l.foldl (fun acc c => acc * 10 + digitVal c) 0

theorem digitsVal_append_digit (l : List Char) (c : Char) :
    digitsVal (l ++ [c]) = digitsVal l * 10 + digitVal c := by
  rw [digitsVal, List.foldl_append]
  rfl

theorem digitVal_digitC {n : Nat} (h : n < 10) : digitVal (digitC n) = n := by
  interval_cases n <;> decide

theorem digitsVal_natToStrAux : ∀ (fuel n : Nat), n < fuel →
    digitsVal (natToStrAux fuel n) = n := by
  intro fuel
  induction fuel with
  | zero => intro n h; omega
  | succ fuel ih =>
    intro n h
    rw [natToStrAux]
    by_cases h10 : n < 10
    · rw [if_pos h10]
      have : digitsVal [digitC n] = digitVal (digitC n) := by
        rw [digitsVal]
        simp [List.foldl]
      rw [this, digitVal_digitC h10]
    · rw [if_neg h10]
      have hlt : n / 10 < fuel := by
        have := Nat.div_lt_self (by omega : 0 < n) (by omega : 1 < 10)
        omega
      rw [digitsVal_append_digit, ih (n / 10) hlt, digitVal_digitC (Nat.mod_lt n (by omega))]
      omega

theorem natToStr_inj : Function.Injective natToStr := by
  intro m n h
  have hm := digitsVal_natToStrAux (m + 1) m (by omega)
  have hn := digitsVal_natToStrAux (n + 1) n (by omega)
  rw [natToStr] at h
  rw [natToStr] at h
  rw [← hm, ← hn, h]

theorem mkNatStr_inj : Function.Injective (fun n => String.mk (natToStr n)) := by
  intro m n h
  exact natToStr_inj (congrArg String.data h)

/-! ## Remaining small lemmas -/

theorem foldl_push_filter {β : Type} (pred : β → Bool) (f : β → String) :
    ∀ (l : List β) (acc : List String),
      l.foldl (fun a b => if pred b then a ++ [f b] else a) acc
        = acc ++ (l.filter pred).map f := by
  intro l
  induction l with
  | nil => intro acc; simp
  | cons b l ih =>
    intro acc
    rw [List.foldl_cons]
    by_cases hb : pred b = true
    · rw [if_pos hb, ih, List.filter_cons_of_pos hb]
      simp
    · rw [if_neg hb, ih, List.filter_cons_of_neg (by simpa using hb)]

theorem startsWithL_singleton_iff (c : Char) (l : List Char) :
    startsWithL [c] l = true ↔ l.head? = some c := by
  cases l with
  | nil => simp [startsWithL]
  | cons d ds =>
    simp only [startsWithL, Bool.and_eq_true, decide_eq_true_iff, List.head?_cons,
      Option.some.injEq]
    constructor
    · intro h; exact h.1.symm
    · intro h; exact ⟨h.symm, trivial⟩

theorem endsWithL_singleton_iff (c : Char) (l : List Char) :
    endsWithL [c] l = true ↔ l.getLast? = some c := by
  rw [endsWithL, show ([c] : List Char).reverse = [c] from rfl,
    startsWithL_singleton_iff, List.head?_reverse]

/-! ## The claims -/

/-- C1.  For an operation without `operationId`, the generated tool name
follows the spec's algorithm (split on `/`, drop empty segments, turn
placeholder segments `\x7bx\x7d` into `by_x`, replace non-alphanumerics
by `_` elsewhere, join with `_`, and prepend prefix and lower-cased
method); the witness checks the scenario
`/v1/hosts/\x7bname\x7d` ↦ `infra_get_v1_hosts_by_name`. -/
theorem generateToolName_path_algorithm (pfx method path : String) (operation : Operation)
    (h : operation.operationId = none) :
    generateToolName pfx method path operation = specGeneratedName pfx method path := by
  have htrans : ∀ seg : List Char,
      (if startsWithL ['{'] seg ∧ endsWithL ['}'] seg then
        "by_".data ++ (seg.drop 1).dropLast
      else seg.map (fun c => if isAlphaNum c then c else '_'))
      = (if seg.head? = some '{' ∧ seg.getLast? = some '}' then
        "by_".data ++ (seg.drop 1).dropLast
      else seg.map (fun c => if isAlphaNum c then c else '_')) := by
    intro seg
    exact if_congr
      (and_congr (startsWithL_singleton_iff '{' seg) (endsWithL_singleton_iff '}' seg))
      rfl rfl
  have hfilter : ∀ seg : List Char, (¬ seg.isEmpty : Bool) = decide (seg ≠ []) := by
    intro seg
    cases seg <;> simp
  have hname : pathToolNameL path.data
      = sepJoin ['_'] (((splitOnChar '/' path.data).filter fun seg => seg ≠ []).map fun seg =>
          if seg.head? = some '{' ∧ seg.getLast? = some '}' then
            "by_".data ++ (seg.drop 1).dropLast
          else seg.map (fun c => if isAlphaNum c then c else '_')) := by
    rw [pathToolNameL]
    congr 1
    rw [List.filter_congr fun seg _ => hfilter seg]
    exact List.map_congr_left fun seg _ => htrans seg
  simp only [generateToolName, h, specGeneratedName]
  rw [hname]

/-- C1 witness: the concrete Scenario 1 of the spec. -/
theorem generateToolName_path_algorithm_witness :
    generateToolName "infra_" "get" "/v1/hosts/{name}" {} = "infra_get_v1_hosts_by_name" :=
  (generateToolName_path_algorithm "infra_" "get" "/v1/hosts/{name}" {} rfl).trans (by decide)

/-- C2.  An operation that declares a (nonempty) `operationId` is named
prefix + identifier verbatim; method and path do not occur in the
result, so the name is independent of them. -/
theorem generateToolName_operationId (pfx method path : String) (operation : Operation)
    (id : String) (h : operation.operationId = some id) (hne : ¬ id.isEmpty = true) :
    generateToolName pfx method path operation = pfx ++ id := by
  simp only [generateToolName, h]
  rw [if_neg hne]

/-- C2 witness: Scenario 2, `findPets` with prefix `petstore_`, at two
different (method, path) pairs. -/
theorem generateToolName_operationId_witness :
    generateToolName "petstore_" "get" "/pets" { operationId := some "findPets" }
      = "petstore_findPets"
    ∧ generateToolName "petstore_" "delete" "/pets/{id}" { operationId := some "findPets" }
      = "petstore_findPets" :=
  ⟨(generateToolName_operationId "petstore_" "get" "/pets" _ "findPets" rfl (by decide)).trans rfl,
   (generateToolName_operationId "petstore_" "delete" "/pets/{id}" _ "findPets" rfl
      (by decide)).trans rfl⟩

/-- C7.  The Type Mapper is total: the four listed types map as in the
table and every other string maps to `string`. -/
theorem mapSwaggerType_total :
    mapSwaggerType "integer" = "number"
    ∧ mapSwaggerType "boolean" = "boolean"
    ∧ mapSwaggerType "array" = "array"
    ∧ mapSwaggerType "object" = "object"
    ∧ mapSwaggerType "string" = "string"
    ∧ ∀ t : String, t ≠ "integer" → t ≠ "boolean" → t ≠ "array" → t ≠ "object" →
        mapSwaggerType t = "string" := by
  refine ⟨rfl, rfl, rfl, rfl, rfl, ?_⟩
  intro t h1 h2 h3 h4
  rw [mapSwaggerType, if_neg h1, if_neg h2, if_neg h3, if_neg h4]

/-- C7 witness: an unknown declared type degrades to `string`. -/
theorem mapSwaggerType_total_witness : mapSwaggerType "file" = "string" :=
  mapSwaggerType_total.2.2.2.2.2 "file" (by decide) (by decide) (by decide) (by decide)

/-- C3 counterexample.  The pathname setter shortens dot segments, and
such a segment is reachable through substitution: `encodeURIComponent`
leaves `..` unchanged (dots are unreserved), so the argument `id ↦ ".."`
turns template `/\x7bid\x7d` into the leading-slash path `/..`, and
composition with base `https://api.example.com/api` yields
`https://api.example.com/` — the base URL's path component is discarded,
not appended to: the serialised base URL is not a prefix of the
result. -/
theorem buildUrl_base_path_counterexample :
    startsWithL ['/'] (substPathL "/{id}".data [("id", Value.str "..")]) = true
    ∧ buildUrl "https://api.example.com/api" "/{id}" [("id", Value.str "..")]
        = "https://api.example.com/"
    ∧ startsWithL "https://api.example.com/api".data
        (buildUrl "https://api.example.com/api" "/{id}" [("id", Value.str "..")]).data
      = false :=
  ⟨rfl, rfl, rfl⟩

/-- C3 amended.  When the substituted path starts with `/` and neither
it nor the base pathname contains a dot segment (or a backslash), and
the base pathname needs no percent-encoding — all true of every claim
scenario — `buildUrl` appends the path to the base URL's existing path
component: the whole serialised base URL survives as a prefix of the
result, followed by a separating `/` when the base pathname lacks one,
then the encoded substituted path. -/
theorem buildUrl_appends_to_base_path (baseUrl path : String) (args : List (String × Value))
    (h1 : startsWithL ['/'] (substPathL path.data args) = true)
    (h2 : ∀ c ∈ (parseUrl baseUrl).pathname.data, pathEncodeSet c = false)
    (h3 : noDotSegs (parseUrl baseUrl).pathname.data = true)
    (h4 : noDotSegs (substPathL path.data args) = true) :
    buildUrl baseUrl path args
      = urlToString (parseUrl baseUrl)
        ++ (if endsWithL ['/'] (parseUrl baseUrl).pathname.data then "" else "/")
        ++ String.mk (pathEncodeL ((substPathL path.data args).drop 1)) := by
  obtain ⟨t, hbp⟩ : ∃ t, (parseUrl baseUrl).pathname.data = '/' :: t := by
    have hh := parseUrl_pathname_head baseUrl
    cases hpd : (parseUrl baseUrl).pathname.data with
    | nil => rw [hpd] at hh; cases hh
    | cons c t =>
      rw [hpd, List.head?_cons] at hh
      injection hh with hc
      exact ⟨t, by rw [hc]⟩
  have hsubst : substPathL path.data args
      = '/' :: (substPathL path.data args).drop 1 := by
    simpa using eq_append_of_startsWithL h1
  have hcleannd : noDotSegs ((substPathL path.data args).drop 1) = true := by
    apply noDotSegs_of_sep_cons
    rw [← hsubst]
    exact h4
  have ht : noDotSegs t = true := by
    apply noDotSegs_of_sep_cons
    rw [← hbp]
    exact h3
  have hplain_t : pathEncodeL t = t :=
    pathEncodeL_of_plain (fun c hc => h2 c (by rw [hbp]; simp [hc]))
  rw [buildUrl, if_pos h1]
  simp only []
  by_cases hslash : endsWithL ['/'] (parseUrl baseUrl).pathname.data = true
  · rw [if_pos hslash, if_pos hslash]
    have hbody : noDotSegs (t ++ (substPathL path.data args).drop 1) = true := by
      cases htt : t with
      | nil => simpa using hcleannd
      | cons b t' =>
        have hlast : (parseUrl baseUrl).pathname.data.getLast? = some '/' :=
          (endsWithL_singleton_iff '/' _).mp hslash
        have hlt : t.getLast? = some '/' := by
          rw [hbp, htt, List.getLast?_cons_cons] at hlast
          rw [htt]
          exact hlast
        have hdecomp := eq_dropLast_append_of_getLast t '/' hlt
        have ht' := ht
        rw [hdecomp] at ht'
        have htdl : noDotSegs t.dropLast = true := noDotSegs_append_sep_left ht'
        rw [← htt]
        rw [show t ++ (substPathL path.data args).drop 1
            = t.dropLast ++ '/' :: (substPathL path.data args).drop 1 from by
          conv_lhs => rw [hdecomp]
          simp]
        exact noDotSegs_append_sep htdl hcleannd
    have hset : pathnameSet
        ((parseUrl baseUrl).pathname.data ++ (substPathL path.data args).drop 1)
        = '/' :: pathEncodeL (t ++ (substPathL path.data args).drop 1) := by
      rw [hbp, List.cons_append]
      exact pathnameSet_of_noDotSegs hbody
    apply String.ext
    rw [urlToString_data, String.data_append, String.data_append, urlToString_data, hset,
      pathEncodeL_append, hplain_t, hbp]
    simp [List.append_assoc]
  · rw [if_neg hslash, if_neg hslash]
    have hbody : noDotSegs (t ++ '/' :: (substPathL path.data args).drop 1) = true :=
      noDotSegs_append_sep ht hcleannd
    have hset : pathnameSet
        (((parseUrl baseUrl).pathname.data ++ ['/']) ++ (substPathL path.data args).drop 1)
        = '/' :: pathEncodeL (t ++ '/' :: (substPathL path.data args).drop 1) := by
      rw [hbp,
        show (('/' :: t ++ ['/']) ++ (substPathL path.data args).drop 1 : List Char)
          = '/' :: (t ++ '/' :: (substPathL path.data args).drop 1) from by simp]
      exact pathnameSet_of_noDotSegs hbody
    apply String.ext
    rw [urlToString_data, String.data_append, String.data_append, urlToString_data, hset,
      pathEncodeL_append, pathEncodeL_cons,
      if_neg (by decide : ¬ pathEncodeSet '/' = true), hplain_t, hbp]
    simp [List.append_assoc]

/-- C3 witness: Scenario 4 — base `https://api.example.com/api` and
path `/v1/x` resolve to `https://api.example.com/api/v1/x`, the base
path being preserved. -/
theorem buildUrl_appends_to_base_path_witness :
    buildUrl "https://api.example.com/api" "/v1/x" [] = "https://api.example.com/api/v1/x" :=
  (buildUrl_appends_to_base_path "https://api.example.com/api" "/v1/x" []
    (by decide) (by decide) (by decide) (by decide)).trans (by decide)

/-- C4.  The invocation proxy is a total function of the exchange
outcome — it never propagates an exception — and encodes each outcome as
the claim states: the pretty-printed payload as non-error content on
success, and `Error calling <tool>: <detail>` flagged `isError` on
failure, `<detail>` being `HTTP <status>: <payload>` when a response is
present and the raw message otherwise. -/
theorem callApiTool_never_throws (baseUrl : String) (client : RequestConfig → HttpOutcome)
    (tool : SwaggerTool) (args : List (String × Value)) :
    (∀ d, client (buildRequestConfig baseUrl tool args) = .success d →
      callApiTool baseUrl client tool args
        = { content := [{ type := "text", text := jsonStringify d }], isError := false })
    ∧ (∀ status payload message,
        client (buildRequestConfig baseUrl tool args) = .failure (some (status, payload)) message →
        callApiTool baseUrl client tool args
          = { content := [{ type := "text",
                            text := "Error calling " ++ tool.name ++ ": "
                              ++ ("HTTP " ++ String.mk (natToStr status) ++ ": "
                                ++ jsonStringify payload) }],
              isError := true })
    ∧ (∀ message, client (buildRequestConfig baseUrl tool args) = .failure none message →
        callApiTool baseUrl client tool args
          = { content := [{ type := "text",
                            text := "Error calling " ++ tool.name ++ ": " ++ message }],
              isError := true }) := by
  refine ⟨?_, ?_, ?_⟩
  · intro d hd
    rw [callApiTool, hd]
  · intro status payload message hf
    rw [callApiTool, hf]
  · intro message hf
    rw [callApiTool, hf]

/-- C4 witness: a success outcome and the two failure shapes at
concrete inputs. -/
theorem callApiTool_never_throws_witness :
    callApiTool "https://api.example.com"
        (fun _ => HttpOutcome.success (Json.obj [("ok", Json.bool true)]))
        (createToolFromOperation "t" "get" "/pets" {}) []
      = { content := [{ type := "text", text := "\x7b\n  \"ok\": true\n\x7d" }], isError := false }
    ∧ callApiTool "https://api.example.com"
        (fun _ => HttpOutcome.failure (some (404, Json.str "gone")) "Request failed")
        (createToolFromOperation "t" "get" "/pets" {}) []
      = { content := [{ type := "text", text := "Error calling t: HTTP 404: \"gone\"" }],
          isError := true }
    ∧ callApiTool "https://api.example.com"
        (fun _ => HttpOutcome.failure none "socket hang up")
        (createToolFromOperation "t" "get" "/pets" {}) []
      = { content := [{ type := "text", text := "Error calling t: socket hang up" }],
          isError := true } := by
  refine ⟨?_, ?_, ?_⟩
  · exact ((callApiTool_never_throws "https://api.example.com" _ _ []).1 _ rfl).trans (by decide)
  · exact ((callApiTool_never_throws "https://api.example.com" _ _ []).2.1 404 (Json.str "gone")
      "Request failed" rfl).trans (by decide)
  · exact ((callApiTool_never_throws "https://api.example.com" _ _ []).2.2 "socket hang up"
      rfl).trans (by decide)

/-- C6.  For a parameter list with (per the data model) distinct names,
the built input schema has one property per parameter — keyed by name,
typed through the Type Mapper applied to `type`/`schema.type` with
default `string`, described by the declaration or `<name> parameter` —
and its required list is exactly the required parameters' names in
parameter order. -/
theorem createToolFromOperation_schema (name method path : String) (operation : Operation)
    (hnodup : (operation.parameters.map Parameter.name).Nodup) :
    (createToolFromOperation name method path operation).inputSchema.properties
      = operation.parameters.map (fun p =>
          (p.name,
            { type := mapSwaggerType (jsOrString p.type (jsOrString p.schemaType "string"))
              description := jsOrString p.description (p.name ++ " parameter") : PropEntry }))
    ∧ (createToolFromOperation name method path operation).inputSchema.required
      = (operation.parameters.filter (fun p => p.required)).map (fun p => p.name) := by
  have hsplit : operation.parameters.foldl
      (fun acc param =>
        (objInsert acc.1 param.name (paramEntry param),
         if param.required then acc.2 ++ [param.name] else acc.2))
      ([], [])
      = (operation.parameters.foldl (fun a param => objInsert a param.name (paramEntry param)) [],
         operation.parameters.foldl
           (fun b param => if param.required then b ++ [param.name] else b) []) :=
    pair_foldl_split
      (fun a param => objInsert a param.name (paramEntry param))
      (fun b param => if param.required then b ++ [param.name] else b)
      operation.parameters [] []
  constructor
  · show (operation.parameters.foldl
        (fun acc param =>
          (objInsert acc.1 param.name (paramEntry param),
           if param.required then acc.2 ++ [param.name] else acc.2))
        ([], [])).1 = _
    rw [hsplit]
    have := foldl_objInsert (fun p : Parameter => p.name) paramEntry operation.parameters []
      hnodup (fun b _ => rfl)
    rw [this]
    simp [paramEntry]
  · show (operation.parameters.foldl
        (fun acc param =>
          (objInsert acc.1 param.name (paramEntry param),
           if param.required then acc.2 ++ [param.name] else acc.2))
        ([], [])).2 = _
    rw [hsplit]
    exact (foldl_push_filter (fun p : Parameter => p.required) (fun p => p.name)
      operation.parameters []).trans (by simp)

/-- C6 witness: Scenario 3 — a required integer parameter `limit`
yields property type `number` and `limit` in the required list. -/
theorem createToolFromOperation_schema_witness :
    (createToolFromOperation "t" "get" "/pets"
        { parameters := [{ name := "limit", loc := "query", type := some "integer",
                           required := true }] }).inputSchema.properties
      = [("limit", { type := "number", description := "limit parameter" })]
    ∧ (createToolFromOperation "t" "get" "/pets"
        { parameters := [{ name := "limit", loc := "query", type := some "integer",
                           required := true }] }).inputSchema.required
      = ["limit"] := by
  have h := createToolFromOperation_schema "t" "get" "/pets"
    { parameters := [{ name := "limit", loc := "query", type := some "integer",
                       required := true }] } (by decide)
  exact ⟨h.1.trans (by decide), h.2.trans (by decide)⟩

/-- C8.  The built request always carries the collected query mapping
(possibly empty); it carries the merged body object and a JSON
content-type header exactly when that object has at least one field, and
omits both otherwise. -/
theorem buildRequestConfig_body_query (baseUrl : String) (tool : SwaggerTool)
    (args : List (String × Value)) :
    (buildRequestConfig baseUrl tool args).params = collectedQuery tool.parameters args
    ∧ (mergedBody tool.parameters args = [] →
        (buildRequestConfig baseUrl tool args).data = none
        ∧ (buildRequestConfig baseUrl tool args).headers = none)
    ∧ (mergedBody tool.parameters args ≠ [] →
        (buildRequestConfig baseUrl tool args).data = some (mergedBody tool.parameters args)
        ∧ (buildRequestConfig baseUrl tool args).headers
            = some [("Content-Type", "application/json")]) := by
  refine ⟨?_, ?_, ?_⟩
  · show (collectParams tool.parameters args).1 = _
    rw [collectParams_eq]
  · intro hmb
    constructor
    · show (if (collectParams tool.parameters args).2.isEmpty then none
          else some (collectParams tool.parameters args).2) = none
      rw [collectParams_eq]
      simp [hmb]
    · show (if (collectParams tool.parameters args).2.isEmpty then none
          else some [(("Content-Type" : String), ("application/json" : String))]) = none
      rw [collectParams_eq]
      simp [hmb]
  · intro hmb
    have hne : (mergedBody tool.parameters args).isEmpty = false := by
      cases hc : mergedBody tool.parameters args with
      | nil => exact absurd hc hmb
      | cons x xs => rfl
    constructor
    · show (if (collectParams tool.parameters args).2.isEmpty then none
          else some (collectParams tool.parameters args).2) = _
      rw [collectParams_eq]
      simp [hne]
    · show (if (collectParams tool.parameters args).2.isEmpty then none
          else some [(("Content-Type" : String), ("application/json" : String))]) = _
      rw [collectParams_eq]
      simp [hne]

/-- C8 witness: Scenario 6 — a body value with one field and no query
parameters gives a JSON body, the content-type header, and an empty (but
present) query mapping. -/
theorem buildRequestConfig_body_query_witness :
    (buildRequestConfig "https://api.example.com"
        (createToolFromOperation "t" "post" "/pets"
          { parameters := [{ name := "pet", loc := "body" }] })
        [("pet", Value.obj [("name", Value.str "Fluffy")])]).params = []
    ∧ (buildRequestConfig "https://api.example.com"
        (createToolFromOperation "t" "post" "/pets"
          { parameters := [{ name := "pet", loc := "body" }] })
        [("pet", Value.obj [("name", Value.str "Fluffy")])]).data
      = some [("name", Value.str "Fluffy")]
    ∧ (buildRequestConfig "https://api.example.com"
        (createToolFromOperation "t" "post" "/pets"
          { parameters := [{ name := "pet", loc := "body" }] })
        [("pet", Value.obj [("name", Value.str "Fluffy")])]).headers
      = some [("Content-Type", "application/json")] := by
  have h := buildRequestConfig_body_query "https://api.example.com"
    (createToolFromOperation "t" "post" "/pets"
      { parameters := [{ name := "pet", loc := "body" }] })
    [("pet", Value.obj [("name", Value.str "Fluffy")])]
  exact ⟨h.1.trans rfl, (h.2.2 (List.cons_ne_nil _ _)).1.trans rfl,
    (h.2.2 (List.cons_ne_nil _ _)).2⟩

/-- C5 counterexample.  A tool descriptor built from an operation whose
path contains a placeholder but declares no parameters has an empty
required list, so the empty argument bag supplies every required name —
yet the placeholder `\x7bid\x7d` is not substituted: it survives in the
substituted path (and reaches the resolved URL percent-encoded as
`%7Bid%7D`). -/
theorem round_trip_counterexample :
    (createToolFromOperation "petstore_getPet" "get" "/pets/{id}" {}).inputSchema.required = []
    ∧ substPath (createToolFromOperation "petstore_getPet" "get" "/pets/{id}" {}).path []
        = "/pets/{id}"
    ∧ hasPlaceholderL
        (substPath (createToolFromOperation "petstore_getPet" "get" "/pets/{id}" {}).path []).data
        = true
    ∧ buildUrl "https://api.example.com/api"
        (createToolFromOperation "petstore_getPet" "get" "/pets/{id}" {}).path []
        = "https://api.example.com/api/pets/%7Bid%7D" :=
  ⟨rfl, rfl, rfl, rfl⟩

/-- C5 amended.  If, additionally, every placeholder of the path
template occurs exactly once and has a (brace-free) name backed by an
entry in the descriptor's required list — as Swagger validity guarantees
— then an argument bag (with brace-free keys) supplying every required
name substitutes every placeholder: none is left in the substituted
path, and the resolved URL built from a brace-free base contains none
either. -/
theorem round_trip_amended (baseUrl : String) (tool : SwaggerTool)
    (args : List (String × Value)) (ps : List Piece)
    (hpath : tool.path.data = renderPieces ps)
    (hgood : goodPieces ps = true)
    (hnodup : (phNames ps).Nodup)
    (hkeys : ∀ kv ∈ args, braceFree kv.1.data = true)
    (hph : ∀ m ∈ phNames ps, ∃ r ∈ tool.inputSchema.required, r.data = m)
    (hreq : ∀ r ∈ tool.inputSchema.required, ∃ kv ∈ args, kv.1 = r)
    (hbase : braceFree baseUrl.data = true) :
    hasPlaceholderL (substPath tool.path args).data = false
    ∧ hasPlaceholderL (buildUrl baseUrl tool.path args).data = false := by
  have hcov : ∀ m ∈ phNames ps, ∃ kv ∈ args, kv.1.data = m := by
    intro m hm
    obtain ⟨r, hr, hrm⟩ := hph m hm
    obtain ⟨kv, hkv, hkvr⟩ := hreq r hr
    exact ⟨kv, hkv, by rw [hkvr, hrm]⟩
  have hbf : braceFree (substPathL tool.path.data args) = true := by
    rw [hpath]
    exact substPathL_renderPieces_braceFree args ps hgood hnodup hkeys hcov
  exact ⟨hasPlaceholderL_eq_false_of_braceFree hbf,
    hasPlaceholderL_eq_false_of_braceFree (buildUrl_braceFree baseUrl tool.path args hbase)⟩

/-- C5 witness: a descriptor with a required path parameter backing its
only placeholder; the argument bag supplying it leaves no placeholder. -/
theorem round_trip_amended_witness :
    hasPlaceholderL
      (substPath (createToolFromOperation "petstore_getPetById" "get" "/pets/{id}"
        { parameters := [{ name := "id", loc := "path", type := some "integer",
                           required := true }] }).path
        [("id", Value.num 7)]).data = false
    ∧ hasPlaceholderL
        (buildUrl "https://api.example.com/api"
          (createToolFromOperation "petstore_getPetById" "get" "/pets/{id}"
            { parameters := [{ name := "id", loc := "path", type := some "integer",
                               required := true }] }).path
          [("id", Value.num 7)]).data = false := by
  have h := round_trip_amended "https://api.example.com/api"
    (createToolFromOperation "petstore_getPetById" "get" "/pets/{id}"
      { parameters := [{ name := "id", loc := "path", type := some "integer",
                         required := true }] })
    [("id", Value.num 7)]
    [Piece.lit "/pets/".data, Piece.ph "id".data]
    (by decide) (by decide) (by decide) (by decide)
    (by decide) (by decide) (by decide)
  exact h

/-- C9 counterexample.  With the duplicated placeholder `\x7bx\x7d`,
only the first occurrence is substituted — but the second occurrence
does not survive "as literal text in the resolved URL": the resolved URL
contains no brace at all, the residue being percent-encoded `%7Bx%7D`. -/
theorem replace_first_occurrence_counterexample :
    substPath "/a/{x}/b/{x}" [("x", Value.str "v")] = "/a/v/b/{x}"
    ∧ buildUrl "https://h.example" "/a/{x}/b/{x}" [("x", Value.str "v")]
        = "https://h.example/a/v/b/%7Bx%7D"
    ∧ (buildUrl "https://h.example" "/a/{x}/b/{x}" [("x", Value.str "v")]).data.any
        (fun c => c = '{') = false :=
  ⟨rfl, rfl, rfl⟩

/-- C9 amended.  For each argument-bag key only the first occurrence of
its token `\x7bkey\x7d` is replaced (by the percent-encoded value);
later occurrences stay unsubstituted in the substituted path, and in the
resolved URL they appear percent-encoded — the pathname setter encodes
the token of a plain name `k` as `%7Bk%7D` — not as literal text. -/
theorem replace_first_occurrence_amended (p1 p2 p3 k : List Char) (key : String) (v : Value)
    (hkey : key.data = k)
    (h1 : ∀ c ∈ p1, c ≠ '{')
    (hplain : ∀ c ∈ k, pathEncodeSet c = false) :
    substPathL (p1 ++ mkPh k ++ (p2 ++ mkPh k ++ p3)) [(key, v)]
      = p1 ++ encodeURIComponentL (jsToString v) ++ (p2 ++ mkPh k ++ p3)
    ∧ pathEncodeL (mkPh k) = "%7B".data ++ k ++ "%7D".data := by
  subst hkey
  constructor
  · rw [substPathL, List.foldl_cons, List.foldl_nil]
    have hform : mkPh key.data ++ (p2 ++ mkPh key.data ++ p3)
        = '{' :: (key.data ++ ['}'] ++ (p2 ++ mkPh key.data ++ p3)) := by
      simp [mkPh]
    have hsw : startsWithL (mkPh key.data)
        ('{' :: (key.data ++ ['}'] ++ (p2 ++ mkPh key.data ++ p3))) = true := by
      rw [← hform]
      exact startsWithL_append_self _ _
    rw [List.append_assoc, replaceFirstL_append_of_no_open _ _ (by rfl) h1, hform,
      replaceFirstL_cons_pos hsw, ← hform, List.drop_left]
    simp [List.append_assoc]
  · rw [show mkPh key.data = ['{'] ++ key.data ++ ['}'] from by simp [mkPh],
      pathEncodeL_append, pathEncodeL_append, pathEncodeL_of_plain hplain,
      show pathEncodeL ['{'] = "%7B".data from rfl,
      show pathEncodeL ['}'] = "%7D".data from rfl]

/-- C9 witness: the amended statement at the concrete duplicated
template. -/
theorem replace_first_occurrence_amended_witness :
    substPathL "/a/{x}/b/{x}".data [("x", Value.str "v")] = "/a/v/b/{x}".data
    ∧ pathEncodeL (mkPh "x".data) = "%7Bx%7D".data := by
  have h := replace_first_occurrence_amended "/a/".data "/b/".data [] "x".data "x"
    (Value.str "v") rfl (by decide) (by decide)
  exact ⟨h.1.trans rfl, h.2.trans rfl⟩

/-- C10.  Body merging is object-field union: a number or boolean body
value contributes no fields (when it is the only body value the request
carries no body and no content-type header), and a string body value
contributes its characters as index-keyed fields. -/
theorem objAssign_body_merging (baseUrl pname : String) (tool : SwaggerTool) (p : Parameter)
    (hparams : tool.parameters = [p]) (hloc : p.loc = "body") (hname : p.name = pname) :
    (∀ n : Int, (buildRequestConfig baseUrl tool [(pname, Value.num n)]).data = none
      ∧ (buildRequestConfig baseUrl tool [(pname, Value.num n)]).headers = none)
    ∧ (∀ b : Bool, (buildRequestConfig baseUrl tool [(pname, Value.bool b)]).data = none
      ∧ (buildRequestConfig baseUrl tool [(pname, Value.bool b)]).headers = none)
    ∧ (∀ s : String,
        mergedBody tool.parameters [(pname, Value.str s)]
          = s.data.enum.map (fun q => (String.mk (natToStr q.1), Value.str (String.mk [q.2])))
        ∧ (s.data ≠ [] →
            (buildRequestConfig baseUrl tool [(pname, Value.str s)]).data
              = some (s.data.enum.map
                  (fun q => (String.mk (natToStr q.1), Value.str (String.mk [q.2])))))) := by
  have hmb : ∀ v : Value, mergedBody tool.parameters [(pname, v)] = objAssign [] v := by
    intro v
    rw [hparams, mergedBody, List.foldl_cons, List.foldl_nil]
    have hlu : lookupJs [(pname, v)] p.name = some v := by
      rw [hname, lookupJs]
      simp [List.find?]
    rw [hlu, hloc]
    rfl
  have hstr : ∀ s : String, objAssign [] (Value.str s)
      = s.data.enum.map (fun q => (String.mk (natToStr q.1), Value.str (String.mk [q.2]))) := by
    intro s
    rw [objAssign]
    have hfields : assignFields (Value.str s)
        = s.data.enum.map (fun q => (String.mk (natToStr q.1), Value.str (String.mk [q.2]))) := rfl
    rw [hfields]
    apply foldl_objInsert_nil
    rw [List.map_map]
    have hcomp : (Prod.fst ∘ fun q : Nat × Char =>
          (String.mk (natToStr q.1), Value.str (String.mk [q.2])))
        = (fun n => String.mk (natToStr n)) ∘ Prod.fst := rfl
    rw [hcomp, ← List.map_map, List.enum_map_fst]
    exact (List.nodup_range _).map mkNatStr_inj
  refine ⟨?_, ?_, ?_⟩
  · intro n
    have hd := (buildRequestConfig_body_query baseUrl tool [(pname, Value.num n)]).2.1
      ((hmb (Value.num n)).trans rfl)
    exact hd
  · intro b
    have hd := (buildRequestConfig_body_query baseUrl tool [(pname, Value.bool b)]).2.1
      ((hmb (Value.bool b)).trans rfl)
    exact hd
  · intro s
    have hbody := (hmb (Value.str s)).trans (hstr s)
    refine ⟨hbody, ?_⟩
    intro hs
    have hne : mergedBody tool.parameters [(pname, Value.str s)] ≠ [] := by
      rw [hbody]
      simp [hs]
    have hd := (buildRequestConfig_body_query baseUrl tool [(pname, Value.str s)]).2.2 hne
    rw [hd.1, hbody]

/-- C10 witness: a number body value yields no body and no content-type
header; the string `"ab"` yields index-keyed character fields. -/
theorem objAssign_body_merging_witness :
    (buildRequestConfig "https://h.example"
        (createToolFromOperation "t" "post" "/pets"
          { parameters := [{ name := "payload", loc := "body" }] })
        [("payload", Value.num 5)]).data = none
    ∧ (buildRequestConfig "https://h.example"
        (createToolFromOperation "t" "post" "/pets"
          { parameters := [{ name := "payload", loc := "body" }] })
        [("payload", Value.num 5)]).headers = none
    ∧ (buildRequestConfig "https://h.example"
        (createToolFromOperation "t" "post" "/pets"
          { parameters := [{ name := "payload", loc := "body" }] })
        [("payload", Value.str "ab")]).data
      = some [("0", Value.str "a"), ("1", Value.str "b")] := by
  have h := objAssign_body_merging "https://h.example" "payload"
    (createToolFromOperation "t" "post" "/pets"
      { parameters := [{ name := "payload", loc := "body" }] })
    { name := "payload", loc := "body" } rfl rfl rfl
  refine ⟨(h.1 5).1, (h.1 5).2, ?_⟩
  have h3 := (h.2.2 "ab").2 (by decide)
  exact h3.trans rfl

end McpSwagger
